import Mathlib

/-!
# Tic-tac-toe game state: move arbitration and outcome evaluation

A shallow embedding of the class `TicTacToe` of `src/main.cpp`.

* The board `std::array<std::array<char, 3>, 3>` is a total function
  `Fin 3 → Fin 3 → Char`: the array type fixes both dimensions.
* `make_move` receives `int` coordinates and indexes the board with them
  unchecked.  The embedding returns `none` where the source would index the
  array outside its bounds, and `some (result, state)` otherwise.
* Every member function runs under `board_mutex`, so a call is one step from
  state to state; a sequence of calls is a list of such steps (`run`).
* `Player::play_sequential` and `Player::play_random` record the attempts they
  make; the unbounded loop of `play_random` is run for a given number of
  iterations, on coordinates supplied from outside.
* `check_win?`, `check_draw?` and `make_move?` repeat the three functions with
  a bounds test at every subscript.
-/

/-- The 3x3 grid of characters; `' '` marks an empty cell. -/
abbrev Board := Fin 3 → Fin 3 → Char

/-- Conversion of an `int` subscript into an index of a 3-element array;
`none` when the subscript is outside `0..2`. -/
def index? (i : Int) : Option (Fin 3) :=
  if h : 0 ≤ i ∧ i < 3 then some ⟨i.toNat, by omega⟩ else none

/-- The read `board[row][col]` with `int` subscripts. -/
def Board.at? (b : Board) (row col : Int) : Option Char :=
  match index? row, index? col with
  | some r, some c => some (b r c)
  | _, _ => none

/-- The assignment `board[row][col] = v` on in-range subscripts. -/
def Board.set (b : Board) (row col : Fin 3) (v : Char) : Board :=
  fun r c => if r = row ∧ c = col then v else b r c

/-- The fields of class `TicTacToe` (the mutex and the condition variable
carry no data). -/
structure TicTacToe where
  board : Board
  current_player : Char
  game_over : Bool
  winner : Char

namespace TicTacToe

/-- The constructor: empty board, `'X'` to move, game in progress. -/
def init : TicTacToe :=
  { board := fun _ _ => ' ', current_player := 'X', game_over := false, winner := ' ' }

/-- The body of the loop of `check_win` at index `i`: row `i` or column `i`
is filled with `player`. -/
def rowOrCol (g : TicTacToe) (player : Char) (i : Fin 3) : Bool :=
  (g.board i 0 == player && g.board i 1 == player && g.board i 2 == player) ||
  (g.board 0 i == player && g.board 1 i == player && g.board 2 i == player)

/-- `TicTacToe::check_win`: the loop over `i = 0, 1, 2`, then the diagonals. -/
def check_win (g : TicTacToe) (player : Char) : Bool :=
  if ([0, 1, 2] : List (Fin 3)).any (rowOrCol g player) then true
  else if (g.board 0 0 == player && g.board 1 1 == player && g.board 2 2 == player) ||
      (g.board 0 2 == player && g.board 1 1 == player && g.board 2 0 == player) then true
  else false

/-- `TicTacToe::check_draw`: `false` at the first empty cell met in the
row-by-row scan, `true` when the scan ends. -/
def check_draw (g : TicTacToe) : Bool :=
  if ([0, 1, 2] : List (Fin 3)).any
      (fun r => ([0, 1, 2] : List (Fin 3)).any (fun c => g.board r c == ' ')) then false
  else true

/-- `TicTacToe::make_move`.  The guard is evaluated left to right with
short-circuit, so the board is read only when `game_over` is false. -/
def make_move (g : TicTacToe) (player : Char) (row col : Int) : Option (Bool × TicTacToe) :=
  if g.game_over = true then some (false, g)
  else
    match index? row, index? col with
    | some r, some c =>
      if g.board r c ≠ ' ' ∨ player ≠ g.current_player then some (false, g)
      else
        let g1 : TicTacToe := { g with board := g.board.set r c player }
        if g1.check_win player = true then
          some (true, { g1 with game_over := true, winner := player })
        else if g1.check_draw = true then
          some (true, { g1 with game_over := true, winner := 'D' })
        else
          some (true, { g1 with current_player := if g1.current_player = 'X' then 'O' else 'X' })
    | _, _ => none

/-- The success branch of `make_move` on its own (the write and the three-way
outcome update), used to state lemmas about it. -/
def moved (g : TicTacToe) (player : Char) (r c : Fin 3) : TicTacToe :=
  let g1 : TicTacToe := { g with board := g.board.set r c player }
  if g1.check_win player = true then { g1 with game_over := true, winner := player }
  else if g1.check_draw = true then { g1 with game_over := true, winner := 'D' }
  else { g1 with current_player := if g1.current_player = 'X' then 'O' else 'X' }

/-- `TicTacToe::is_game_over`. -/
def is_game_over (g : TicTacToe) : Bool := g.game_over

/-- `TicTacToe::get_winner`. -/
def get_winner (g : TicTacToe) : Char := g.winner

end TicTacToe

/-- One call `make_move(player, row, col)`. -/
structure Call where
  player : Char
  row : Int
  col : Int

/-- Both coordinates of the call lie in `0..2`. -/
def Call.inRange (c : Call) : Prop := (0 ≤ c.row ∧ c.row < 3) ∧ (0 ≤ c.col ∧ c.col < 3)

instance (c : Call) : Decidable c.inRange := by
  unfold Call.inRange; infer_instance

namespace TicTacToe

/-- A sequence of `make_move` calls executed one after the other: the
results in call order and the final state. -/
def run : TicTacToe → List Call → Option (List Bool × TicTacToe)
  | g, [] => some ([], g)
  | g, c :: cs =>
    match g.make_move c.player c.row c.col with
    | none => none
    | some (ok, g1) =>
      match run g1 cs with
      | none => none
      | some (oks, g2) => some (ok :: oks, g2)

/-- The states the game can be in after some sequence of `make_move` calls
issued on a freshly constructed game.  A sequence counts when every call in
it returns, that is when no call indexes the board outside its bounds. -/
def Reachable (g : TicTacToe) : Prop :=
  ∃ calls oks, run init calls = some (oks, g)

/-- The eight lines of the grid as coordinate triples. -/
def lines : List (List (Fin 3 × Fin 3)) :=
  [ [(0, 0), (0, 1), (0, 2)], [(1, 0), (1, 1), (1, 2)], [(2, 0), (2, 1), (2, 2)],
    [(0, 0), (1, 0), (2, 0)], [(0, 1), (1, 1), (2, 1)], [(0, 2), (1, 2), (2, 2)],
    [(0, 0), (1, 1), (2, 2)], [(0, 2), (1, 1), (2, 0)] ]

/-- Every cell of the line `l` holds `player`. -/
def lineFilled (g : TicTacToe) (player : Char) (l : List (Fin 3 × Fin 3)) : Prop :=
  ∀ p ∈ l, g.board p.1 p.2 = player

instance (g : TicTacToe) (player : Char) (l : List (Fin 3 × Fin 3)) :
    Decidable (lineFilled g player l) := by
  unfold lineFilled; infer_instance

/-- At least one of the eight lines is filled with `player`. -/
def hasLine (g : TicTacToe) (player : Char) : Prop :=
  ∃ l ∈ lines, lineFilled g player l

instance (g : TicTacToe) (player : Char) : Decidable (hasLine g player) := by
  unfold hasLine; infer_instance

/-- The five opening moves of the first scenario: `X` completes the top row. -/
def topRowGame : List Call :=
  [⟨'X', 0, 0⟩, ⟨'O', 1, 1⟩, ⟨'X', 0, 1⟩, ⟨'O', 2, 2⟩, ⟨'X', 0, 2⟩]

/-- A finished game: `X` holds the top row. -/
def topRowWon : TicTacToe :=
  { board := fun r c => if r = 0 then 'X' else if r = c then 'O' else ' ',
    current_player := 'X', game_over := true, winner := 'X' }

/-- The players of the calls that returned true, in call order. -/
def successfulPlayers : List Call → List Bool → List Char
  | c :: cs, ok :: oks =>
    if ok = true then c.player :: successfulPlayers cs oks else successfulPlayers cs oks
  | _, _ => []

/-- Two successive movers: one is `'X'` and the other `'O'`. -/
def Alternate (a b : Char) : Prop := (a = 'X' ∧ b = 'O') ∨ (a = 'O' ∧ b = 'X')

/-- What every state reached from the initial one satisfies: the player to
move is `'X'` or `'O'`; while the game is on, `winner` is `' '` and no line
is complete; once it is over, `winner` names the outcome the grid shows. -/
def WellFormed (g : TicTacToe) : Prop :=
  (g.current_player = 'X' ∨ g.current_player = 'O') ∧
  (g.game_over = false → g.winner = ' ' ∧ ¬ hasLine g 'X' ∧ ¬ hasLine g 'O') ∧
  (g.game_over = true →
    (g.winner = 'D' ∧ (∀ r c : Fin 3, g.board r c ≠ ' ') ∧ ¬ hasLine g 'X' ∧ ¬ hasLine g 'O') ∨
    (g.winner = 'X' ∧ hasLine g 'X' ∧ ¬ hasLine g 'O') ∨
    (g.winner = 'O' ∧ hasLine g 'O' ∧ ¬ hasLine g 'X'))

/-- A grid no game produces: `X` fills row 0 and `O` fills row 1. -/
def twoRows : TicTacToe :=
  { board := fun r _ => if r = 0 then 'X' else if r = 1 then 'O' else ' ',
    current_player := 'X', game_over := true, winner := 'X' }

/-- Eight alternating moves after which only `(2, 2)` is empty and no line
is complete; `X` at `(2, 2)` then completes the main diagonal. -/
def eightMoves : List Call :=
  [⟨'X', 0, 0⟩, ⟨'O', 0, 1⟩, ⟨'X', 1, 1⟩, ⟨'O', 0, 2⟩,
   ⟨'X', 1, 2⟩, ⟨'O', 1, 0⟩, ⟨'X', 2, 0⟩, ⟨'O', 2, 1⟩]

/-- The state after `eightMoves`. -/
def afterEight : TicTacToe :=
  (((((((init.moved 'X' 0 0).moved 'O' 0 1).moved 'X' 1 1).moved 'O' 0 2).moved
    'X' 1 2).moved 'O' 1 0).moved 'X' 2 0).moved 'O' 2 1

/-- The nine cells in row-major order. -/
def allCells : List (Fin 3 × Fin 3) :=
  [(0, 0), (0, 1), (0, 2), (1, 0), (1, 1), (1, 2), (2, 0), (2, 1), (2, 2)]

/-- The number of cells whose content satisfies `P`. -/
def countCells (g : TicTacToe) (P : Char → Bool) : Nat :=
  allCells.countP (fun p => P (g.board p.1 p.2))

/-- The number of cells that hold the character `ch`. -/
def countOf (g : TicTacToe) (ch : Char) : Nat := countCells g (fun x => x == ch)

/-- The number of non-empty cells. -/
def marks (g : TicTacToe) : Nat := countCells g (fun x => x != ' ')

/-- The counting facts every reachable state satisfies: cells hold `' '`,
`'X'` or `'O'`; the marks are the `'X'` cells and the `'O'` cells; `'X'` has
as many cells as `'O'` or one more; while the game is on, the player to move
is the one the counts name and some cell is empty. -/
def Counted (g : TicTacToe) : Prop :=
  (∀ r c : Fin 3, g.board r c = ' ' ∨ g.board r c = 'X' ∨ g.board r c = 'O') ∧
  marks g = countOf g 'X' + countOf g 'O' ∧
  (countOf g 'X' = countOf g 'O' ∨ countOf g 'X' = countOf g 'O' + 1) ∧
  (g.game_over = false →
    (g.current_player = 'X' ∧ countOf g 'X' = countOf g 'O') ∨
    (g.current_player = 'O' ∧ countOf g 'X' = countOf g 'O' + 1)) ∧
  (g.game_over = false → ∃ r c : Fin 3, g.board r c = ' ')

/-- A board given row by row. -/
def boardOfRows (rows : List (List Char)) : Board :=
  fun r c => (rows.getD r.val []).getD c.val ' '

/-- The grid of the draw scenario as the specification writes it. -/
def specDrawGrid : Board :=
  boardOfRows [['X', 'O', 'X'], ['O', 'X', 'O'], ['O', 'X', 'O']]

/-- A full grid with no complete line that a game does produce: the grid
above with `'X'` at `(1, 0)`. -/
def drawGrid : Board :=
  boardOfRows [['X', 'O', 'X'], ['X', 'X', 'O'], ['O', 'X', 'O']]

/-- Nine alternating moves that fill the board as `drawGrid`. -/
def drawGame : List Call :=
  [⟨'X', 0, 0⟩, ⟨'O', 0, 1⟩, ⟨'X', 0, 2⟩, ⟨'O', 1, 2⟩, ⟨'X', 1, 0⟩,
   ⟨'O', 2, 0⟩, ⟨'X', 1, 1⟩, ⟨'O', 2, 2⟩, ⟨'X', 2, 1⟩]

end TicTacToe

/-! ### The players -/

/-- How a call of `play` ends: it returns after the listed `make_move`
attempts (each with its result), or an attempt indexes the board outside its
bounds, or the loop is still running after the iterations that were run. -/
inductive Played where
  | returned (attempts : List (Call × Bool)) (g : TicTacToe)
  | outOfBounds
  | looping (attempts : List (Call × Bool)) (g : TicTacToe)

/-- One more attempt ahead of the ones recorded. -/
def Played.after (a : Call × Bool) : Played → Played
  | .returned attempts g => .returned (a :: attempts) g
  | .outOfBounds => .outOfBounds
  | .looping attempts g => .looping (a :: attempts) g

/-- The attempts made so far. -/
def Played.attempts : Played → List (Call × Bool)
  | .returned attempts _ => attempts
  | .outOfBounds => []
  | .looping attempts _ => attempts

/-- The coordinates the nested loops of `play_sequential` go through:
`row = 0, 1, 2` and, inside, `col = 0, 1, 2`. -/
def rasterCells : List (Int × Int) :=
  ([0, 1, 2] : List Int).flatMap (fun row => ([0, 1, 2] : List Int).map (fun col => (row, col)))

/-- The loops of `play_sequential` from the cell at the head of the list on:
a call per cell, and `return` at the first call that returns true. -/
def attemptEach (symbol : Char) : List (Int × Int) → TicTacToe → Played
  | [], g => .returned [] g
  | (row, col) :: rest, g =>
    match g.make_move symbol row col with
    | none => .outOfBounds
    | some (true, g1) => .returned [(⟨symbol, row, col⟩, true)] g1
    | some (false, g1) => (attemptEach symbol rest g1).after (⟨symbol, row, col⟩, false)

/-- `Player::play_sequential`. -/
def play_sequential (symbol : Char) (g : TicTacToe) : Played :=
  attemptEach symbol rasterCells g

/-- `Player::play_random`: the loop `while (true)` run for at most `fuel`
iterations, from iteration `i` on.  The generator and
`uniform_int_distribution<int> dist(0, 2)` are library code: `draws i` is the
pair of values in `0..2` they deliver in iteration `i`. -/
def play_random (symbol : Char) (draws : Nat → Fin 3 × Fin 3) : Nat → Nat → TicTacToe → Played
  | 0, _, g => .looping [] g
  | fuel + 1, i, g =>
    match g.make_move symbol ((draws i).1.val : Int) ((draws i).2.val : Int) with
    | none => .outOfBounds
    | some (true, g1) =>
      .returned [(⟨symbol, ((draws i).1.val : Int), ((draws i).2.val : Int)⟩, true)] g1
    | some (false, g1) =>
      (play_random symbol draws fuel (i + 1) g1).after
        (⟨symbol, ((draws i).1.val : Int), ((draws i).2.val : Int)⟩, false)

/-- The fields of class `Player` next to the reference to the game. -/
structure Player where
  symbol : Char
  strategy : String

/-- `Player::play`: dispatch on the strategy name; any other name does nothing. -/
def Player.play (p : Player) (draws : Nat → Fin 3 × Fin 3) (fuel : Nat) (g : TicTacToe) :
    Played :=
  if p.strategy = "sequential" then play_sequential p.symbol g
  else if p.strategy = "random" then play_random p.symbol draws fuel 0 g
  else .returned [] g

/-- The call `make_move(symbol, r, c)` with its result. -/
def attemptAt (symbol : Char) (ok : Bool) (p : Fin 3 × Fin 3) : Call × Bool :=
  (⟨symbol, (p.1.val : Int), (p.2.val : Int)⟩, ok)

/-- Row-major order of cells: smaller row, or same row and smaller column. -/
def rasterBefore (p q : Fin 3 × Fin 3) : Prop := p.1 < q.1 ∨ (p.1 = q.1 ∧ p.2 < q.2)

instance (p q : Fin 3 × Fin 3) : Decidable (rasterBefore p q) := by
  unfold rasterBefore; infer_instance

/-! ### Every subscript checked

A second embedding of `check_win`, `check_draw` and `make_move` in which
every subscript is an `int` and every board access goes through the bounds
test; `none` reports an access outside the board. -/

/-- The assignment `board[row][col] = v` with `int` subscripts. -/
def Board.set? (b : Board) (row col : Int) (v : Char) : Option Board :=
  match index? row, index? col with
  | some r, some c => some (b.set r c v)
  | _, _ => none

/-- The operator `&&` on operands that may fail: the right operand counts
only when the left one is true. -/
def andAlso? (a b : Option Bool) : Option Bool :=
  a.bind (fun x => if x = true then b else some false)

/-- The operator `||` on operands that may fail: the right operand counts
only when the left one is false. -/
def orElse? (a b : Option Bool) : Option Bool :=
  a.bind (fun x => if x = true then some true else b)

namespace TicTacToe

/-- The test `board[row][col] == ch` with `int` subscripts. -/
def cellIs? (g : TicTacToe) (row col : Int) (ch : Char) : Option Bool :=
  (g.board.at? row col).map (fun x => x == ch)

/-- The loop of `check_win` over the remaining values of `i`: `some true`
when it returns true, `some false` when it runs to its end. -/
def check_win_loop? (g : TicTacToe) (player : Char) : List Int → Option Bool
  | [] => some false
  | i :: rest =>
    (orElse?
      (andAlso? (andAlso? (g.cellIs? i 0 player) (g.cellIs? i 1 player)) (g.cellIs? i 2 player))
      (andAlso? (andAlso? (g.cellIs? 0 i player) (g.cellIs? 1 i player))
        (g.cellIs? 2 i player))).bind
      (fun found => if found = true then some true else check_win_loop? g player rest)

/-- `TicTacToe::check_win` with every access checked. -/
def check_win? (g : TicTacToe) (player : Char) : Option Bool :=
  (check_win_loop? g player [0, 1, 2]).bind (fun found =>
    if found = true then some true
    else
      (orElse?
        (andAlso? (andAlso? (g.cellIs? 0 0 player) (g.cellIs? 1 1 player))
          (g.cellIs? 2 2 player))
        (andAlso? (andAlso? (g.cellIs? 0 2 player) (g.cellIs? 1 1 player))
          (g.cellIs? 2 0 player))).bind
        (fun diag => if diag = true then some true else some false))

/-- The scan of `check_draw` over the remaining cells. -/
def check_draw_scan? (g : TicTacToe) : List (Int × Int) → Option Bool
  | [] => some true
  | (row, col) :: rest =>
    (g.cellIs? row col ' ').bind
      (fun empty => if empty = true then some false else check_draw_scan? g rest)

/-- `TicTacToe::check_draw` with every access checked. -/
def check_draw? (g : TicTacToe) : Option Bool :=
  check_draw_scan? g rasterCells

/-- `TicTacToe::make_move` with every access checked, in its own body and in
the calls of `check_win` and `check_draw`. -/
def make_move? (g : TicTacToe) (player : Char) (row col : Int) : Option (Bool × TicTacToe) :=
  if g.game_over = true then some (false, g)
  else
    match g.board.at? row col with
    | none => none
    | some cell =>
      if cell ≠ ' ' ∨ player ≠ g.current_player then some (false, g)
      else
        match g.board.set? row col player with
        | none => none
        | some b1 =>
          let g1 : TicTacToe := { g with board := b1 }
          match g1.check_win? player with
          | none => none
          | some true => some (true, { g1 with game_over := true, winner := player })
          | some false =>
            match g1.check_draw? with
            | none => none
            | some true => some (true, { g1 with game_over := true, winner := 'D' })
            | some false =>
              some (true,
                { g1 with current_player := if g1.current_player = 'X' then 'O' else 'X' })

end TicTacToe

/-! ## Outcome evaluation -/

namespace TicTacToe

theorem lineFilled_triple (g : TicTacToe) (player : Char) (a b c : Fin 3 × Fin 3) :
    lineFilled g player [a, b, c] ↔
      g.board a.1 a.2 = player ∧ g.board b.1 b.2 = player ∧ g.board c.1 c.2 = player := by
  simp [lineFilled]

/-- The eight lines written out cell by cell. -/
theorem hasLine_iff (g : TicTacToe) (player : Char) :
    hasLine g player ↔
      (g.board 0 0 = player ∧ g.board 0 1 = player ∧ g.board 0 2 = player) ∨
      (g.board 1 0 = player ∧ g.board 1 1 = player ∧ g.board 1 2 = player) ∨
      (g.board 2 0 = player ∧ g.board 2 1 = player ∧ g.board 2 2 = player) ∨
      (g.board 0 0 = player ∧ g.board 1 0 = player ∧ g.board 2 0 = player) ∨
      (g.board 0 1 = player ∧ g.board 1 1 = player ∧ g.board 2 1 = player) ∨
      (g.board 0 2 = player ∧ g.board 1 2 = player ∧ g.board 2 2 = player) ∨
      (g.board 0 0 = player ∧ g.board 1 1 = player ∧ g.board 2 2 = player) ∨
      (g.board 0 2 = player ∧ g.board 1 1 = player ∧ g.board 2 0 = player) := by
  simp only [hasLine, lines, List.exists_mem_cons_iff, lineFilled_triple, List.not_mem_nil,
    false_and, exists_false, or_false]

theorem check_win_iff_hasLine (g : TicTacToe) (player : Char) :
    g.check_win player = true ↔ hasLine g player := by
  rw [hasLine_iff]
  simp [check_win, rowOrCol, and_assoc, or_assoc]
  constructor <;> rintro (h | h | h | h | h | h | h | h) <;> simp [h]

theorem check_draw_iff_full (g : TicTacToe) :
    g.check_draw = true ↔ ∀ r c : Fin 3, g.board r c ≠ ' ' := by
  simp [check_draw, Fin.forall_fin_succ]

/-- C6: on every board and for every character `player`, `check_win player`
returns true if and only if at least one of the eight lines (three rows,
three columns, the two diagonals) has all three cells equal to `player`. -/
theorem check_win_correct (g : TicTacToe) (player : Char) :
    g.check_win player = true ↔ ∃ l ∈ lines, ∀ p ∈ l, g.board p.1 p.2 = player :=
  check_win_iff_hasLine g player

/-- C7: on every board, `check_draw` returns true if and only if no cell of
the board equals `' '`. -/
theorem check_draw_correct (g : TicTacToe) :
    g.check_draw = true ↔ ∀ r c : Fin 3, g.board r c ≠ ' ' :=
  check_draw_iff_full g

end TicTacToe

/-! ## Subscripts -/

theorem index?_of_range {i : Int} (h : 0 ≤ i ∧ i < 3) :
    ∃ r : Fin 3, index? i = some r ∧ ((r : Nat) : Int) = i := by
  refine ⟨⟨i.toNat, by omega⟩, ?_, ?_⟩
  · simp [index?, h]
  · simp only []
    omega

theorem index?_eq_some {i : Int} {r : Fin 3} (h : index? i = some r) :
    ((r : Nat) : Int) = i ∧ 0 ≤ i ∧ i < 3 := by
  unfold index? at h
  split at h
  · rename_i hi
    simp only [Option.some.injEq] at h
    subst h
    simp only []
    omega
  · simp at h

theorem index?_inj {i j : Int} {r : Fin 3} (hi : index? i = some r) (hj : index? j = some r) :
    i = j := by
  have h1 := (index?_eq_some hi).1
  have h2 := (index?_eq_some hj).1
  omega

theorem Board.at?_eq_some {b : Board} {row col : Int} {r c : Fin 3}
    (hr : index? row = some r) (hc : index? col = some c) :
    b.at? row col = some (b r c) := by
  simp [Board.at?, hr, hc]

theorem Board.at?_eq_some_inv {b : Board} {row col : Int} {v : Char}
    (h : b.at? row col = some v) :
    ∃ r c : Fin 3, index? row = some r ∧ index? col = some c ∧ b r c = v := by
  unfold Board.at? at h
  cases hr : index? row with
  | none => simp [hr] at h
  | some r =>
    cases hc : index? col with
    | none => simp [hr, hc] at h
    | some c =>
      simp only [hr, hc, Option.some.injEq] at h
      exact ⟨r, c, rfl, rfl, h⟩

theorem Board.set_same (b : Board) (r c : Fin 3) (v : Char) : b.set r c v r c = v := by
  simp [Board.set]

theorem Board.set_other (b : Board) (r c : Fin 3) (v : Char) (r1 c1 : Fin 3)
    (h : r1 ≠ r ∨ c1 ≠ c) : b.set r c v r1 c1 = b r1 c1 := by
  have : ¬ (r1 = r ∧ c1 = c) := by tauto
  simp [Board.set, this]

/-- Outside the written cell, reads with `int` subscripts see the old board. -/
theorem Board.at?_set_other (b : Board) {row col : Int} {r c : Fin 3} (v : Char)
    (hr : index? row = some r) (hc : index? col = some c) (row1 col1 : Int)
    (h : row1 ≠ row ∨ col1 ≠ col) : (b.set r c v).at? row1 col1 = b.at? row1 col1 := by
  unfold Board.at?
  cases h1 : index? row1 with
  | none => rfl
  | some r1 =>
    cases h2 : index? col1 with
    | none => rfl
    | some c1 =>
      have hne : r1 ≠ r ∨ c1 ≠ c := by
        rcases h with h | h
        · left
          intro e
          subst e
          exact h (index?_inj h1 hr)
        · right
          intro e
          subst e
          exact h (index?_inj h2 hc)
      simp [Board.set_other b r c v r1 c1 hne]

/-! ## One call of `make_move` -/

namespace TicTacToe

theorem check_win_congr {g h : TicTacToe} (e : g.board = h.board) (player : Char) :
    g.check_win player = h.check_win player := by
  simp [check_win, rowOrCol, e]

theorem check_draw_congr {g h : TicTacToe} (e : g.board = h.board) :
    g.check_draw = h.check_draw := by
  simp [check_draw, e]

/-- A call on a finished game is rejected before the board is read. -/
theorem make_move_game_over (g : TicTacToe) (player : Char) (row col : Int)
    (h : g.game_over = true) : g.make_move player row col = some (false, g) := by
  simp [make_move, h]

theorem moved_board (g : TicTacToe) (player : Char) (r c : Fin 3) :
    (g.moved player r c).board = g.board.set r c player := by
  unfold moved
  simp only []
  split
  · rfl
  · split <;> rfl

/-- With both subscripts in range, `make_move` is a three-way case split. -/
theorem make_move_in_range (g : TicTacToe) (player : Char) {row col : Int} {r c : Fin 3}
    (hr : index? row = some r) (hc : index? col = some c) :
    g.make_move player row col =
      if g.game_over = true ∨ g.board r c ≠ ' ' ∨ player ≠ g.current_player then some (false, g)
      else some (true, g.moved player r c) := by
  unfold make_move moved
  simp only [hr, hc]
  by_cases h1 : g.game_over = true
  · simp [h1]
  · by_cases h2 : g.board r c ≠ ' ' ∨ player ≠ g.current_player
    · simp [h1, h2]
    · have h3 : ¬ (g.game_over = true ∨ g.board r c ≠ ' ' ∨ player ≠ g.current_player) := by
        tauto
      rw [if_neg h1, if_neg h2, if_neg h3]
      split
      · rfl
      · split <;> rfl

/-- With both subscripts in range the call returns, and a false result
leaves the state as it was. -/
theorem make_move_total (g : TicTacToe) (player : Char) (row col : Int)
    (hrow : 0 ≤ row ∧ row < 3) (hcol : 0 ≤ col ∧ col < 3) :
    ∃ (ok : Bool) (g1 : TicTacToe), g.make_move player row col = some (ok, g1) ∧
      (ok = false → g1 = g) ∧
      (ok = false ↔
        (g.game_over = true ∨ g.board.at? row col ≠ some ' ' ∨ player ≠ g.current_player)) := by
  obtain ⟨r, hr, -⟩ := index?_of_range hrow
  obtain ⟨c, hc, -⟩ := index?_of_range hcol
  rw [make_move_in_range g player hr hc, Board.at?_eq_some hr hc]
  by_cases h : g.game_over = true ∨ g.board r c ≠ ' ' ∨ player ≠ g.current_player
  · refine ⟨false, g, by rw [if_pos h], fun _ => rfl, ?_⟩
    simpa using h
  · refine ⟨true, g.moved player r c, by rw [if_neg h], by simp, ?_⟩
    simpa using h

end TicTacToe

/-! ## The contract of `make_move` -/

namespace TicTacToe

/-- C1: in a state with `game_over` false, for `row`, `col` in `0..2` with
`board[row][col] == ' '` and `player == current_player`, `make_move` returns
true; the new board holds `player` at `(row, col)` and is unchanged elsewhere;
if `check_win player` holds on the new board then `game_over` is true,
`winner` is `player` and `current_player` is unchanged; otherwise if the new
board has no empty cell then `game_over` is true and `winner` is `'D'`;
otherwise `game_over` stays false, `winner` is unchanged and `current_player`
becomes `'O'` if it was `'X'` and `'X'` otherwise. -/
theorem make_move_accepts (g : TicTacToe) (player : Char) (row col : Int)
    (hrow : 0 ≤ row ∧ row < 3) (hcol : 0 ≤ col ∧ col < 3)
    (hover : g.game_over = false) (hcell : g.board.at? row col = some ' ')
    (hturn : player = g.current_player) :
    ∃ g1 : TicTacToe, g.make_move player row col = some (true, g1) ∧
      g1.board.at? row col = some player ∧
      (∀ r c : Int, r ≠ row ∨ c ≠ col → g1.board.at? r c = g.board.at? r c) ∧
      (g1.check_win player = true →
        g1.game_over = true ∧ g1.winner = player ∧ g1.current_player = g.current_player) ∧
      (g1.check_win player = false → (∀ r c : Fin 3, g1.board r c ≠ ' ') →
        g1.game_over = true ∧ g1.winner = 'D') ∧
      (g1.check_win player = false → (∃ r c : Fin 3, g1.board r c = ' ') →
        g1.game_over = false ∧ g1.winner = g.winner ∧
          g1.current_player = if g.current_player = 'X' then 'O' else 'X') := by
  obtain ⟨r, hr, -⟩ := index?_of_range hrow
  obtain ⟨c, hc, -⟩ := index?_of_range hcol
  rw [Board.at?_eq_some hr hc] at hcell
  have hcell1 : g.board r c = ' ' := by simpa using hcell
  have hb := moved_board g player r c
  refine ⟨g.moved player r c, ?_, ?_, ?_, ?_, ?_, ?_⟩
  · rw [make_move_in_range g player hr hc]
    simp [hover, hcell1, hturn]
  · rw [hb, Board.at?_eq_some hr hc, Board.set_same]
  · intro r1 c1 h
    rw [hb]
    exact Board.at?_set_other g.board player hr hc r1 c1 h
  · intro hw
    have hw1 : check_win { g with board := g.board.set r c player } player = true := by
      rw [← hw]
      exact check_win_congr hb.symm player
    simp [moved, hw1]
  · intro hw hfull
    have hw1 : check_win { g with board := g.board.set r c player } player = false := by
      rw [← hw]
      exact check_win_congr hb.symm player
    have hd : check_draw { g with board := g.board.set r c player } = true := by
      rw [check_draw_iff_full]
      intro r1 c1
      have := hfull r1 c1
      rwa [hb] at this
    simp [moved, hw1, hd]
  · intro hw hempty
    have hw1 : check_win { g with board := g.board.set r c player } player = false := by
      rw [← hw]
      exact check_win_congr hb.symm player
    have hd : check_draw { g with board := g.board.set r c player } = false := by
      rw [← Bool.not_eq_true, check_draw_iff_full]
      intro hfull
      obtain ⟨r1, c1, h1⟩ := hempty
      rw [hb] at h1
      exact hfull r1 c1 h1
    simp [moved, hw1, hd]
    exact hover

/-- The empty board, `'X'` to move, cell `(1, 1)`: the hypotheses of C1 hold. -/
theorem make_move_accepts_witness :
    ∃ g1 : TicTacToe, init.make_move 'X' 1 1 = some (true, g1) ∧
      g1.board.at? 1 1 = some 'X' ∧
      (∀ r c : Int, r ≠ 1 ∨ c ≠ 1 → g1.board.at? r c = init.board.at? r c) ∧
      (g1.check_win 'X' = true →
        g1.game_over = true ∧ g1.winner = 'X' ∧ g1.current_player = init.current_player) ∧
      (g1.check_win 'X' = false → (∀ r c : Fin 3, g1.board r c ≠ ' ') →
        g1.game_over = true ∧ g1.winner = 'D') ∧
      (g1.check_win 'X' = false → (∃ r c : Fin 3, g1.board r c = ' ') →
        g1.game_over = false ∧ g1.winner = init.winner ∧
          g1.current_player = if init.current_player = 'X' then 'O' else 'X') :=
  make_move_accepts init 'X' 1 1 (by decide) (by decide) rfl (by decide) rfl

/-- C2: for `row`, `col` in `0..2`, `make_move` returns a result; the result
is false exactly when `game_over` is true, or `board[row][col]` is not `' '`,
or `player` differs from `current_player`; and a call that returns false
leaves `board`, `current_player`, `game_over` and `winner` as they were. -/
theorem make_move_rejects (g : TicTacToe) (player : Char) (row col : Int)
    (hrow : 0 ≤ row ∧ row < 3) (hcol : 0 ≤ col ∧ col < 3) :
    ∃ (ok : Bool) (g1 : TicTacToe), g.make_move player row col = some (ok, g1) ∧
      (ok = false ↔
        (g.game_over = true ∨ g.board.at? row col ≠ some ' ' ∨ player ≠ g.current_player)) ∧
      (ok = false → g1 = g) := by
  obtain ⟨r, hr, -⟩ := index?_of_range hrow
  obtain ⟨c, hc, -⟩ := index?_of_range hcol
  rw [make_move_in_range g player hr hc, Board.at?_eq_some hr hc]
  by_cases h : g.game_over = true ∨ g.board r c ≠ ' ' ∨ player ≠ g.current_player
  · refine ⟨false, g, by rw [if_pos h], ?_, fun _ => rfl⟩
    simpa using h
  · refine ⟨true, g.moved player r c, by rw [if_neg h], ?_, by simp⟩
    simpa using h

/-- After `X` has taken `(1, 1)`, `O` asking for the same cell meets the
hypotheses of C2 and is rejected. -/
theorem make_move_rejects_witness :
    ∃ (ok : Bool) (g1 : TicTacToe),
      (init.moved 'X' 1 1).make_move 'O' 1 1 = some (ok, g1) ∧
      (ok = false ↔
        ((init.moved 'X' 1 1).game_over = true ∨
          (init.moved 'X' 1 1).board.at? 1 1 ≠ some ' ' ∨
          'O' ≠ (init.moved 'X' 1 1).current_player)) ∧
      (ok = false → g1 = init.moved 'X' 1 1) :=
  make_move_rejects (init.moved 'X' 1 1) 'O' 1 1 (by decide) (by decide)

end TicTacToe

/-! ## Sequences of calls -/

namespace TicTacToe

/-- The two ways a call can end when it returns at all. -/
theorem make_move_cases {g g1 : TicTacToe} {player : Char} {row col : Int} {ok : Bool}
    (h : g.make_move player row col = some (ok, g1)) :
    (ok = false ∧ g1 = g) ∨
    (ok = true ∧ g.game_over = false ∧ player = g.current_player ∧
      ∃ r c : Fin 3, index? row = some r ∧ index? col = some c ∧ g.board r c = ' ' ∧
        g1 = g.moved player r c) := by
  by_cases hover : g.game_over = true
  · rw [make_move_game_over g player row col hover] at h
    simp only [Option.some.injEq, Prod.mk.injEq] at h
    exact Or.inl ⟨h.1.symm, h.2.symm⟩
  · cases hr : index? row with
    | none => simp [make_move, hover, hr] at h
    | some r =>
      cases hc : index? col with
      | none => simp [make_move, hover, hr, hc] at h
      | some c =>
        rw [make_move_in_range g player hr hc] at h
        split at h
        · simp only [Option.some.injEq, Prod.mk.injEq] at h
          exact Or.inl ⟨h.1.symm, h.2.symm⟩
        · rename_i hcond
          simp only [Option.some.injEq, Prod.mk.injEq] at h
          refine Or.inr ⟨h.1.symm, by simpa using hover, ?_, r, c, rfl, rfl, ?_, h.2.symm⟩
          · by_contra hne
            exact hcond (Or.inr (Or.inr hne))
          · by_contra hne
            exact hcond (Or.inr (Or.inl hne))

theorem run_nil (g : TicTacToe) : g.run [] = some ([], g) := rfl

theorem run_cons_eq_some {g g2 : TicTacToe} {c : Call} {cs : List Call} {oks : List Bool}
    (h : g.run (c :: cs) = some (oks, g2)) :
    ∃ ok g1 oks1, g.make_move c.player c.row c.col = some (ok, g1) ∧
      g1.run cs = some (oks1, g2) ∧ oks = ok :: oks1 := by
  simp only [run] at h
  cases hm : g.make_move c.player c.row c.col with
  | none => simp [hm] at h
  | some res =>
    obtain ⟨ok, g1⟩ := res
    cases hrun : g1.run cs with
    | none => simp [hm, hrun] at h
    | some res1 =>
      obtain ⟨oks1, g3⟩ := res1
      simp only [hm, hrun, Option.some.injEq, Prod.mk.injEq] at h
      exact ⟨ok, g1, oks1, rfl, by rw [← h.2, hrun], h.1.symm⟩

theorem run_cons_of_eq {g g1 g2 : TicTacToe} {c : Call} {cs : List Call} {ok : Bool}
    {oks : List Bool} (h1 : g.make_move c.player c.row c.col = some (ok, g1))
    (h2 : g1.run cs = some (oks, g2)) : g.run (c :: cs) = some (ok :: oks, g2) := by
  simp [run, h1, h2]

/-- A property kept by every single call is kept by every sequence. -/
theorem run_preserves (P : TicTacToe → Prop)
    (step : ∀ g player row col ok g1, P g → g.make_move player row col = some (ok, g1) → P g1) :
    ∀ (calls : List Call) (g : TicTacToe) (oks : List Bool) (g2 : TicTacToe),
      P g → g.run calls = some (oks, g2) → P g2 := by
  intro calls
  induction calls with
  | nil =>
    intro g oks g2 hP h
    simp only [run_nil, Option.some.injEq, Prod.mk.injEq] at h
    rw [← h.2]
    exact hP
  | cons c cs ih =>
    intro g oks g2 hP h
    obtain ⟨ok, g1, oks1, hm, hr, -⟩ := run_cons_eq_some h
    exact ih g1 oks1 g2 (step g c.player c.row c.col ok g1 hP hm) hr

/-- Every sequence of calls on a finished game is rejected call by call and
leaves the state as it was. -/
theorem run_game_over (calls : List Call) (g : TicTacToe) (h : g.game_over = true) :
    g.run calls = some (List.replicate calls.length false, g) := by
  induction calls with
  | nil => rfl
  | cons c cs ih =>
    exact run_cons_of_eq (make_move_game_over g c.player c.row c.col h) ih

/-- With all coordinates in `0..2` a sequence of calls runs to its end. -/
theorem run_defined (calls : List Call) :
    ∀ g : TicTacToe, (∀ c ∈ calls, c.inRange) → ∃ oks g2, g.run calls = some (oks, g2) := by
  induction calls with
  | nil => intro g _; exact ⟨[], g, rfl⟩
  | cons c cs ih =>
    intro g h
    have hc : c.inRange := h c (List.mem_cons_self c cs)
    obtain ⟨r, hr, -⟩ := index?_of_range hc.1
    obtain ⟨k, hk, -⟩ := index?_of_range hc.2
    have hm := make_move_in_range g c.player hr hk
    obtain ⟨oks, g2, h2⟩ : ∃ oks g2, (if g.game_over = true ∨ g.board r k ≠ ' ' ∨
        c.player ≠ g.current_player then g else g.moved c.player r k).run cs = some (oks, g2) :=
      ih _ (fun d hd => h d (List.mem_cons_of_mem c hd))
    split at hm
    · rename_i hcond
      rw [if_pos hcond] at h2
      exact ⟨false :: oks, g2, run_cons_of_eq hm h2⟩
    · rename_i hcond
      rw [if_neg hcond] at h2
      exact ⟨true :: oks, g2, run_cons_of_eq hm h2⟩

end TicTacToe

/-! ## Status monotonicity and the single-write rule -/

namespace TicTacToe

/-- A call never changes a cell that holds a mark. -/
theorem make_move_keeps_marks {g g1 : TicTacToe} {player : Char} {row col : Int} {ok : Bool}
    (h : g.make_move player row col = some (ok, g1)) (r c : Fin 3) (hm : g.board r c ≠ ' ') :
    g1.board r c = g.board r c := by
  rcases make_move_cases h with ⟨-, rfl⟩ | ⟨-, -, -, r0, c0, -, -, hcell, rfl⟩
  · rfl
  · rw [moved_board]
    apply Board.set_other
    by_contra hne
    have hr : r = r0 := by
      by_contra e
      exact hne (Or.inl e)
    have hc : c = c0 := by
      by_contra e
      exact hne (Or.inr e)
    subst hr
    subst hc
    exact hm hcell

/-- A call changes at most one cell. -/
theorem make_move_one_cell {g g1 : TicTacToe} {player : Char} {row col : Int} {ok : Bool}
    (h : g.make_move player row col = some (ok, g1)) :
    ∃ r0 c0 : Fin 3, ∀ r c : Fin 3, r ≠ r0 ∨ c ≠ c0 → g1.board r c = g.board r c := by
  rcases make_move_cases h with ⟨-, rfl⟩ | ⟨-, -, -, r0, c0, -, -, -, rfl⟩
  · exact ⟨0, 0, fun _ _ _ => rfl⟩
  · refine ⟨r0, c0, fun r c hne => ?_⟩
    rw [moved_board]
    exact Board.set_other g.board r0 c0 player r c hne

/-- Marks survive every sequence of calls. -/
theorem run_keeps_marks {g g2 : TicTacToe} {calls : List Call} {oks : List Bool}
    (h : g.run calls = some (oks, g2)) (r c : Fin 3) (hm : g.board r c ≠ ' ') :
    g2.board r c = g.board r c := by
  refine run_preserves (fun s => s.board r c = g.board r c) ?_ calls g oks g2 rfl h
  intro s player row col ok s1 hs hmove
  have hs1 : s.board r c ≠ ' ' := by
    rw [hs]
    exact hm
  rw [make_move_keeps_marks hmove r c hs1, hs]

/-- C3: status monotonicity.  From a state with `game_over` true, every
sequence of `make_move` calls with coordinates in `0..2` (any players, any
length) returns false at each call and ends in the very same state; and the
moves X(0,0), O(1,1), X(0,1), O(2,2), X(0,2) from the initial state all
succeed and end the game with winner `'X'`, after which every further
sequence of attempts is rejected and changes nothing. -/
theorem status_monotonic :
    (∀ (g : TicTacToe) (calls : List Call), g.game_over = true → (∀ c ∈ calls, c.inRange) →
      g.run calls = some (List.replicate calls.length false, g)) ∧
    (∃ g5 : TicTacToe, init.run topRowGame = some ([true, true, true, true, true], g5) ∧
      g5.game_over = true ∧ g5.winner = 'X' ∧
      ∀ calls : List Call, (∀ c ∈ calls, c.inRange) →
        g5.run calls = some (List.replicate calls.length false, g5)) :=
  ⟨fun g calls h _ => run_game_over calls g h,
    ⟨_, rfl, rfl, rfl, fun calls _ => run_game_over calls _ rfl⟩⟩

/-- On the finished game `topRowWon`, both players asking for free and for
taken cells are rejected and the state stays as it was. -/
theorem status_monotonic_witness :
    topRowWon.run [⟨'O', 2, 0⟩, ⟨'X', 2, 0⟩, ⟨'O', 0, 0⟩] =
      some ([false, false, false], topRowWon) :=
  status_monotonic.1 topRowWon [⟨'O', 2, 0⟩, ⟨'X', 2, 0⟩, ⟨'O', 0, 0⟩] rfl (by decide)

/-- C4: single-write invariant.  Every sequence of calls with coordinates in
`0..2` runs to its end from the initial state; in a state reached from the
initial empty board, a cell that holds a mark holds the same mark after any
further sequence of calls (so no mark is replaced or erased); and each call
changes at most one cell. -/
theorem single_write :
    (∀ calls : List Call, (∀ c ∈ calls, c.inRange) → ∃ oks g, init.run calls = some (oks, g)) ∧
    (∀ g : TicTacToe, Reachable g → ∀ (calls : List Call) (oks : List Bool) (g2 : TicTacToe),
      g.run calls = some (oks, g2) →
        ∀ r c : Fin 3, g.board r c ≠ ' ' → g2.board r c = g.board r c) ∧
    (∀ g : TicTacToe, Reachable g → ∀ (player : Char) (row col : Int) (ok : Bool)
      (g1 : TicTacToe), g.make_move player row col = some (ok, g1) →
        ∃ r0 c0 : Fin 3, ∀ r c : Fin 3, r ≠ r0 ∨ c ≠ c0 → g1.board r c = g.board r c) :=
  ⟨fun calls h => run_defined calls init h,
    fun _ _ _ _ _ h r c hm => run_keeps_marks h r c hm,
    fun _ _ _ _ _ _ _ h => make_move_one_cell h⟩

/-- After `X` has taken `(0, 0)`, a rejected and an accepted call of `O`
leave the mark at `(0, 0)` in place. -/
theorem single_write_witness :
    ((init.moved 'X' 0 0).moved 'O' 1 1).board 0 0 = (init.moved 'X' 0 0).board 0 0 :=
  single_write.2.1 (init.moved 'X' 0 0) ⟨[⟨'X', 0, 0⟩], [true], rfl⟩
    [⟨'O', 0, 0⟩, ⟨'O', 1, 1⟩] [false, true] ((init.moved 'X' 0 0).moved 'O' 1 1) rfl
    0 0 (by decide)

end TicTacToe

/-! ## The invariant of reachable states -/

namespace TicTacToe

theorem hasLine_congr {g h : TicTacToe} (e : g.board = h.board) (player : Char) :
    hasLine g player ↔ hasLine h player := by
  simp [hasLine, lineFilled, e]

/-- Writing `player` into a cell completes no line of another character. -/
theorem hasLine_before_write {g g1 : TicTacToe} {player q : Char} {r c : Fin 3}
    (hb : g1.board = g.board.set r c player) (hq : q ≠ player) (h : hasLine g1 q) :
    hasLine g q := by
  obtain ⟨l, hl, hfill⟩ := h
  refine ⟨l, hl, fun cell hcell => ?_⟩
  have h1 := hfill cell hcell
  rw [hb] at h1
  unfold Board.set at h1
  split at h1
  · exact absurd h1.symm hq
  · exact h1

theorem moved_of_win {g : TicTacToe} {player : Char} {r c : Fin 3}
    (h : hasLine (g.moved player r c) player) :
    (g.moved player r c).game_over = true ∧ (g.moved player r c).winner = player ∧
      (g.moved player r c).current_player = g.current_player := by
  have hw : check_win { g with board := g.board.set r c player } player = true := by
    rw [check_win_iff_hasLine]
    exact (hasLine_congr (moved_board g player r c) player).1 h
  simp [moved, hw]

theorem moved_of_draw {g : TicTacToe} {player : Char} {r c : Fin 3}
    (h : ¬ hasLine (g.moved player r c) player)
    (hfull : ∀ r1 c1 : Fin 3, (g.moved player r c).board r1 c1 ≠ ' ') :
    (g.moved player r c).game_over = true ∧ (g.moved player r c).winner = 'D' ∧
      (g.moved player r c).current_player = g.current_player := by
  have hw : check_win { g with board := g.board.set r c player } player = false := by
    rw [← Bool.not_eq_true, check_win_iff_hasLine]
    exact fun hl => h ((hasLine_congr (moved_board g player r c) player).2 hl)
  have hd : check_draw { g with board := g.board.set r c player } = true := by
    rw [check_draw_iff_full]
    intro r1 c1
    have := hfull r1 c1
    rwa [moved_board] at this
  simp [moved, hw, hd]

theorem moved_of_continue {g : TicTacToe} {player : Char} {r c : Fin 3}
    (h : ¬ hasLine (g.moved player r c) player)
    (hempty : ∃ r1 c1 : Fin 3, (g.moved player r c).board r1 c1 = ' ') :
    (g.moved player r c).game_over = g.game_over ∧ (g.moved player r c).winner = g.winner ∧
      (g.moved player r c).current_player = if g.current_player = 'X' then 'O' else 'X' := by
  have hw : check_win { g with board := g.board.set r c player } player = false := by
    rw [← Bool.not_eq_true, check_win_iff_hasLine]
    exact fun hl => h ((hasLine_congr (moved_board g player r c) player).2 hl)
  have hd : check_draw { g with board := g.board.set r c player } = false := by
    rw [← Bool.not_eq_true, check_draw_iff_full]
    intro hfull
    obtain ⟨r1, c1, h1⟩ := hempty
    rw [moved_board] at h1
    exact hfull r1 c1 h1
  simp [moved, hw, hd]

theorem wellFormed_init : WellFormed init := by
  refine ⟨Or.inl rfl, fun _ => ⟨rfl, ?_, ?_⟩, fun h => ?_⟩
  · rw [← check_win_iff_hasLine]
    decide
  · rw [← check_win_iff_hasLine]
    decide
  · simp [init] at h

theorem wellFormed_moved {g : TicTacToe} {player : Char} {r c : Fin 3} (hg : WellFormed g)
    (hover : g.game_over = false) (hturn : player = g.current_player) :
    WellFormed (g.moved player r c) := by
  obtain ⟨hcp, hon, -⟩ := hg
  obtain ⟨hwin, hnx, hno⟩ := hon hover
  have hb := moved_board g player r c
  have hother : ∀ q : Char, q ≠ player → (q = 'X' ∨ q = 'O') →
      ¬ hasLine (g.moved player r c) q := by
    intro q hq hxo hl
    have := hasLine_before_write hb hq hl
    rcases hxo with rfl | rfl
    · exact hnx this
    · exact hno this
  have hxo : 'X' ≠ 'O' := by decide
  by_cases hl : hasLine (g.moved player r c) player
  · obtain ⟨h1, h2, h3⟩ := moved_of_win hl
    refine ⟨h3 ▸ hcp, fun h => ?_, fun _ => ?_⟩
    · rw [h1] at h
      cases h
    rw [h2]
    rcases hcp with hx | ho
    · have hp : player = 'X' := hturn.trans hx
      subst hp
      exact Or.inr (Or.inl ⟨rfl, hl, hother 'O' hxo.symm (Or.inr rfl)⟩)
    · have hp : player = 'O' := hturn.trans ho
      subst hp
      exact Or.inr (Or.inr ⟨rfl, hl, hother 'X' hxo (Or.inl rfl)⟩)
  · have hnone : ¬ hasLine (g.moved player r c) 'X' ∧ ¬ hasLine (g.moved player r c) 'O' := by
      constructor
      · by_cases e : 'X' = player
        · rw [e]
          exact hl
        · exact hother 'X' e (Or.inl rfl)
      · by_cases e : 'O' = player
        · rw [e]
          exact hl
        · exact hother 'O' e (Or.inr rfl)
    by_cases hfull : ∀ r1 c1 : Fin 3, (g.moved player r c).board r1 c1 ≠ ' '
    · obtain ⟨h1, h2, h3⟩ := moved_of_draw hl hfull
      refine ⟨h3 ▸ hcp, fun h => ?_, fun _ => Or.inl ⟨h2, hfull, hnone⟩⟩
      rw [h1] at h
      cases h
    · have hempty : ∃ r1 c1 : Fin 3, (g.moved player r c).board r1 c1 = ' ' := by
        by_contra hne
        apply hfull
        intro r1 c1 e
        exact hne ⟨r1, c1, e⟩
      obtain ⟨h1, h2, h3⟩ := moved_of_continue hl hempty
      refine ⟨?_, fun _ => ⟨h2.trans hwin, hnone⟩, fun h => ?_⟩
      · rw [h3]
        by_cases e : g.current_player = 'X'
        · rw [if_pos e]
          exact Or.inr rfl
        · rw [if_neg e]
          exact Or.inl rfl
      · rw [h1, hover] at h
        cases h

theorem wellFormed_make_move {g g1 : TicTacToe} {player : Char} {row col : Int} {ok : Bool}
    (hg : WellFormed g) (h : g.make_move player row col = some (ok, g1)) : WellFormed g1 := by
  rcases make_move_cases h with ⟨-, rfl⟩ | ⟨-, hover, hturn, r, c, -, -, -, rfl⟩
  · exact hg
  · exact wellFormed_moved hg hover hturn

theorem wellFormed_run {g g2 : TicTacToe} {calls : List Call} {oks : List Bool}
    (hg : WellFormed g) (h : g.run calls = some (oks, g2)) : WellFormed g2 :=
  run_preserves WellFormed (fun _ _ _ _ _ _ hs hm => wellFormed_make_move hs hm) calls g oks g2 hg h

theorem wellFormed_of_reachable {g : TicTacToe} (h : Reachable g) : WellFormed g := by
  obtain ⟨calls, oks, hrun⟩ := h
  exact wellFormed_run wellFormed_init hrun

end TicTacToe

/-! ## Turn alternation -/

namespace TicTacToe

/-- After a successful move the mover is rejected next: the game is over or
the turn has passed to another character. -/
theorem moved_blocks_mover (g : TicTacToe) (player : Char) (r c : Fin 3)
    (hturn : player = g.current_player) :
    (g.moved player r c).game_over = true ∨ player ≠ (g.moved player r c).current_player := by
  by_cases hl : hasLine (g.moved player r c) player
  · exact Or.inl (moved_of_win hl).1
  · by_cases hfull : ∀ r1 c1 : Fin 3, (g.moved player r c).board r1 c1 ≠ ' '
    · exact Or.inl (moved_of_draw hl hfull).1
    · have hempty : ∃ r1 c1 : Fin 3, (g.moved player r c).board r1 c1 = ' ' := by
        by_contra hne
        exact hfull (fun r1 c1 e => hne ⟨r1, c1, e⟩)
      right
      rw [(moved_of_continue hl hempty).2.2, ← hturn]
      by_cases e : player = 'X'
      · rw [if_pos e, e]
        decide
      · rw [if_neg e]
        exact e

/-- While the game goes on after a move, the turn has gone from one of
`'X'`, `'O'` to the other. -/
theorem moved_alternates {g : TicTacToe} {player : Char} {r c : Fin 3} (hg : WellFormed g)
    (hon : (g.moved player r c).game_over = false) :
    Alternate g.current_player (g.moved player r c).current_player := by
  have hflip : (g.moved player r c).current_player =
      if g.current_player = 'X' then 'O' else 'X' := by
    by_cases hl : hasLine (g.moved player r c) player
    · rw [(moved_of_win hl).1] at hon
      cases hon
    · by_cases hfull : ∀ r1 c1 : Fin 3, (g.moved player r c).board r1 c1 ≠ ' '
      · rw [(moved_of_draw hl hfull).1] at hon
        cases hon
      · have hempty : ∃ r1 c1 : Fin 3, (g.moved player r c).board r1 c1 = ' ' := by
          by_contra hne
          exact hfull (fun r1 c1 e => hne ⟨r1, c1, e⟩)
        exact (moved_of_continue hl hempty).2.2
  rw [hflip]
  rcases hg.1 with hx | ho
  · rw [if_pos hx]
    exact Or.inl ⟨hx, rfl⟩
  · have hne : g.current_player ≠ 'X' := by
      rw [ho]
      decide
    rw [if_neg hne]
    exact Or.inr ⟨ho, rfl⟩

/-- From a well-formed state, the successful movers of a sequence alternate,
and the first of them is the player to move of a game still in progress. -/
theorem successfulPlayers_alternate (calls : List Call) :
    ∀ (g : TicTacToe) (oks : List Bool) (g2 : TicTacToe), WellFormed g →
      g.run calls = some (oks, g2) →
      (∀ p ∈ (successfulPlayers calls oks).head?, p = g.current_player ∧ g.game_over = false) ∧
      List.Chain' Alternate (successfulPlayers calls oks) := by
  induction calls with
  | nil =>
    intro g oks g2 _ _
    simp [successfulPlayers]
  | cons c cs ih =>
    intro g oks g2 hg h
    obtain ⟨ok, g1, oks1, hm, hr, rfl⟩ := run_cons_eq_some h
    rcases make_move_cases hm with ⟨rfl, rfl⟩ | ⟨rfl, hover, hturn, r, k, -, -, -, rfl⟩
    · have := ih g1 oks1 g2 hg hr
      simpa [successfulPlayers] using this
    · obtain ⟨ih1, ih2⟩ := ih _ oks1 g2 (wellFormed_moved hg hover hturn) hr
      have hsp : successfulPlayers (c :: cs) (true :: oks1) =
          c.player :: successfulPlayers cs oks1 := by
        simp [successfulPlayers]
      rw [hsp]
      refine ⟨?_, List.chain'_cons'.2 ⟨?_, ih2⟩⟩
      · intro p hp
        simp only [List.head?_cons, Option.mem_def, Option.some.injEq] at hp
        exact ⟨hp.symm.trans hturn, hover⟩
      · intro y hy
        obtain ⟨hy1, hy2⟩ := ih1 y hy
        rw [hturn, hy1]
        exact moved_alternates hg hy2

/-- C5: turn alternation.  In every sequence of `make_move` calls from the
initial state, the first call that returns true (if any) has player `'X'`,
and any two consecutive calls that return true have different players, one
`'X'` and the other `'O'`; and in a reachable state, a player whose call has
just returned true is rejected, with the state unchanged, on an immediate
second attempt at any cell with coordinates in `0..2`. -/
theorem turn_alternation :
    (∀ (calls : List Call) (oks : List Bool) (g : TicTacToe), init.run calls = some (oks, g) →
      (∀ p ∈ (successfulPlayers calls oks).head?, p = 'X') ∧
      List.Chain' Alternate (successfulPlayers calls oks)) ∧
    (∀ g : TicTacToe, Reachable g → ∀ (player : Char) (row col : Int) (g1 : TicTacToe),
      g.make_move player row col = some (true, g1) →
      ∀ row2 col2 : Int, 0 ≤ row2 ∧ row2 < 3 → 0 ≤ col2 ∧ col2 < 3 →
        g1.make_move player row2 col2 = some (false, g1)) := by
  constructor
  · intro calls oks g h
    obtain ⟨h1, h2⟩ := successfulPlayers_alternate calls init oks g wellFormed_init h
    exact ⟨fun p hp => (h1 p hp).1, h2⟩
  · intro g _ player row col g1 h row2 col2 hrow hcol
    rcases make_move_cases h with ⟨hf, -⟩ | ⟨-, -, hturn, r, c, -, -, -, rfl⟩
    · cases hf
    · obtain ⟨r2, hr2, -⟩ := index?_of_range hrow
      obtain ⟨c2, hc2, -⟩ := index?_of_range hcol
      rw [make_move_in_range _ player hr2 hc2]
      have hcond := moved_blocks_mover g player r c hturn
      have : (g.moved player r c).game_over = true ∨
          (g.moved player r c).board r2 c2 ≠ ' ' ∨
          player ≠ (g.moved player r c).current_player := by
        tauto
      rw [if_pos this]

/-- Four calls from the initial state, the second and third rejected: the
successful movers are `'X'` then `'O'`. -/
theorem turn_alternation_witness :
    (∀ p ∈ (successfulPlayers [⟨'X', 0, 0⟩, ⟨'X', 0, 1⟩, ⟨'O', 0, 0⟩, ⟨'O', 1, 1⟩]
        [true, false, false, true]).head?, p = 'X') ∧
    List.Chain' Alternate (successfulPlayers [⟨'X', 0, 0⟩, ⟨'X', 0, 1⟩, ⟨'O', 0, 0⟩, ⟨'O', 1, 1⟩]
        [true, false, false, true]) :=
  turn_alternation.1 [⟨'X', 0, 0⟩, ⟨'X', 0, 1⟩, ⟨'O', 0, 0⟩, ⟨'O', 1, 1⟩]
    [true, false, false, true] _ rfl

end TicTacToe

/-! ## Outcomes -/

namespace TicTacToe

theorem check_win_eq_false_iff (g : TicTacToe) (player : Char) :
    g.check_win player = false ↔ ¬ hasLine g player := by
  rw [← check_win_iff_hasLine, Bool.not_eq_true]

/-- C8 as stated fails: in `twoRows` row 0 is a line filled with `'X'`, and
`check_win` returns true for the opposing symbol `'O'`, whose marks fill
row 1; so "true for `'X'` and false for `'O'`" does not hold there. -/
theorem win_detection_counterexample :
    [(0, 0), (0, 1), (0, 2)] ∈ lines ∧ lineFilled twoRows 'X' [(0, 0), (0, 1), (0, 2)] ∧
      twoRows.check_win 'O' = true ∧
      ¬ (twoRows.check_win 'X' = true ∧ twoRows.check_win 'O' = false) := by
  decide

/-- C8, amended: for each of the eight lines and each symbol `s` of `'X'`,
`'O'` with opposing symbol `t`, on every board whose three cells of that line
hold `s`, `check_win s` returns true; `check_win t` returns true exactly when
`t` itself fills one of the eight lines, a line that then shares no cell with
the first; and on every board reachable from the initial state by
`make_move` calls `check_win t` returns false. -/
theorem win_detection (g : TicTacToe) (l : List (Fin 3 × Fin 3)) (s t : Char)
    (hl : l ∈ lines) (hst : (s = 'X' ∧ t = 'O') ∨ (s = 'O' ∧ t = 'X'))
    (hfill : lineFilled g s l) :
    g.check_win s = true ∧
    (g.check_win t = true ↔
      ∃ l2 ∈ lines, (∀ cell ∈ l2, cell ∉ l) ∧ lineFilled g t l2) ∧
    (Reachable g → g.check_win t = false) := by
  have hne : s ≠ t := by
    rcases hst with ⟨rfl, rfl⟩ | ⟨rfl, rfl⟩ <;> decide
  have hs : hasLine g s := ⟨l, hl, hfill⟩
  refine ⟨(check_win_iff_hasLine g s).2 hs, ?_, ?_⟩
  · rw [check_win_iff_hasLine]
    constructor
    · rintro ⟨l2, hl2, hfill2⟩
      refine ⟨l2, hl2, fun cell hcell hmem => ?_, hfill2⟩
      exact hne ((hfill cell hmem).symm.trans (hfill2 cell hcell))
    · rintro ⟨l2, hl2, -, hfill2⟩
      exact ⟨l2, hl2, hfill2⟩
  · intro hreach
    rw [check_win_eq_false_iff]
    obtain ⟨-, hon, hoff⟩ := wellFormed_of_reachable hreach
    intro ht
    cases hover : g.game_over with
    | false =>
      obtain ⟨-, hx, ho⟩ := hon hover
      rcases hst with ⟨rfl, rfl⟩ | ⟨rfl, rfl⟩
      · exact ho ht
      · exact hx ht
    | true =>
      rcases hoff hover with ⟨-, -, hx, ho⟩ | ⟨-, -, ho⟩ | ⟨-, -, hx⟩
      · rcases hst with ⟨rfl, rfl⟩ | ⟨rfl, rfl⟩
        · exact ho ht
        · exact hx ht
      · rcases hst with ⟨rfl, rfl⟩ | ⟨rfl, rfl⟩
        · exact ho ht
        · exact ho hs
      · rcases hst with ⟨rfl, rfl⟩ | ⟨rfl, rfl⟩
        · exact hx hs
        · exact hx ht

/-- In `topRowWon` row 0 is filled with `'X'`; the opposing symbol is `'O'`. -/
theorem win_detection_witness :
    topRowWon.check_win 'X' = true ∧
    (topRowWon.check_win 'O' = true ↔
      ∃ l2 ∈ lines, (∀ cell ∈ l2, cell ∉ [((0 : Fin 3), (0 : Fin 3)), (0, 1), (0, 2)]) ∧
        lineFilled topRowWon 'O' l2) ∧
    (Reachable topRowWon → topRowWon.check_win 'O' = false) :=
  win_detection topRowWon [(0, 0), (0, 1), (0, 2)] 'X' 'O' (by decide)
    (Or.inl ⟨rfl, rfl⟩) (by decide)

/-- C9: mutual exclusivity of outcomes.  In every state reachable from the
initial state by `make_move` calls: if `winner` is `'D'` the board has no
empty cell and `check_win` is false for `'X'` and for `'O'`; if `winner` is
`'X'` or `'O'` then `check_win winner` is true and `check_win` of the other
symbol is false; `winner` is `' '` exactly when `game_over` is false, and
then `check_win` is false for both symbols.  And a successful move from a
reachable state that leaves no empty cell and completes a line of the mover
ends the game with the mover as `winner`, not with `'D'`. -/
theorem outcomes_exclusive :
    (∀ g : TicTacToe, Reachable g →
      (g.winner = 'D' → (∀ r c : Fin 3, g.board r c ≠ ' ') ∧
        g.check_win 'X' = false ∧ g.check_win 'O' = false) ∧
      (g.winner = 'X' → g.check_win 'X' = true ∧ g.check_win 'O' = false) ∧
      (g.winner = 'O' → g.check_win 'O' = true ∧ g.check_win 'X' = false) ∧
      (g.winner = ' ' ↔ g.game_over = false) ∧
      (g.game_over = false → g.check_win 'X' = false ∧ g.check_win 'O' = false)) ∧
    (∀ g : TicTacToe, Reachable g → ∀ (player : Char) (row col : Int) (g1 : TicTacToe),
      g.make_move player row col = some (true, g1) →
      (∀ r c : Fin 3, g1.board r c ≠ ' ') → g1.check_win player = true →
        g1.game_over = true ∧ g1.winner = player ∧ g1.winner ≠ 'D') := by
  constructor
  · intro g hreach
    obtain ⟨-, hon, hoff⟩ := wellFormed_of_reachable hreach
    simp only [check_win_eq_false_iff, check_win_iff_hasLine]
    cases hover : g.game_over with
    | false =>
      obtain ⟨hw, hx, ho⟩ := hon hover
      rw [hw]
      refine ⟨fun h => ?_, fun h => ?_, fun h => ?_, by simp, fun _ => ⟨hx, ho⟩⟩
      · exact absurd h (by decide)
      · exact absurd h (by decide)
      · exact absurd h (by decide)
    | true =>
      rcases hoff hover with ⟨hw, hfull, hx, ho⟩ | ⟨hw, hx, ho⟩ | ⟨hw, ho, hx⟩
      · rw [hw]
        refine ⟨fun _ => ⟨hfull, hx, ho⟩, fun h => ?_, fun h => ?_, ?_, fun h => ?_⟩
        · exact absurd h (by decide)
        · exact absurd h (by decide)
        · simp
        · cases h
      · rw [hw]
        refine ⟨fun h => ?_, fun _ => ⟨hx, ho⟩, fun h => ?_, ?_, fun h => ?_⟩
        · exact absurd h (by decide)
        · exact absurd h (by decide)
        · simp
        · cases h
      · rw [hw]
        refine ⟨fun h => ?_, fun h => ?_, fun _ => ⟨ho, hx⟩, ?_, fun h => ?_⟩
        · exact absurd h (by decide)
        · exact absurd h (by decide)
        · simp
        · cases h
  · intro g hreach player row col g1 h _ hwin
    have hcp := (wellFormed_of_reachable hreach).1
    rcases make_move_cases h with ⟨hf, -⟩ | ⟨-, -, hturn, r, c, -, -, -, rfl⟩
    · cases hf
    · obtain ⟨h1, h2, -⟩ := moved_of_win ((check_win_iff_hasLine _ player).1 hwin)
      refine ⟨h1, h2, ?_⟩
      rw [h2, hturn]
      rcases hcp with e | e <;> rw [e] <;> decide

theorem reachable_afterEight : Reachable afterEight :=
  ⟨eightMoves, [true, true, true, true, true, true, true, true], rfl⟩

/-- The state `afterEight` is reachable and in progress; from it `X` takes
the last empty cell `(2, 2)`, completes the main diagonal and wins. -/
theorem outcomes_exclusive_witness :
    ((afterEight.winner = 'D' → (∀ r c : Fin 3, afterEight.board r c ≠ ' ') ∧
        afterEight.check_win 'X' = false ∧ afterEight.check_win 'O' = false) ∧
      (afterEight.winner = 'X' →
        afterEight.check_win 'X' = true ∧ afterEight.check_win 'O' = false) ∧
      (afterEight.winner = 'O' →
        afterEight.check_win 'O' = true ∧ afterEight.check_win 'X' = false) ∧
      (afterEight.winner = ' ' ↔ afterEight.game_over = false) ∧
      (afterEight.game_over = false →
        afterEight.check_win 'X' = false ∧ afterEight.check_win 'O' = false)) ∧
    ((afterEight.moved 'X' 2 2).game_over = true ∧ (afterEight.moved 'X' 2 2).winner = 'X' ∧
      (afterEight.moved 'X' 2 2).winner ≠ 'D') :=
  ⟨outcomes_exclusive.1 afterEight reachable_afterEight,
    outcomes_exclusive.2 afterEight reachable_afterEight 'X' 2 2 (afterEight.moved 'X' 2 2) rfl
      (by decide) (by decide)⟩

end TicTacToe

/-! ## Two players asking for the same cell -/

namespace TicTacToe

/-- The player to move and any other character ask for the same empty cell:
in both orders the player to move gets it and the other call is rejected. -/
theorem race_orders (g : TicTacToe) (p q : Char) {row col : Int} {r c : Fin 3}
    (hr : index? row = some r) (hc : index? col = some c) (hover : g.game_over = false)
    (hcell : g.board r c = ' ') (hp : p = g.current_player) (hq : q ≠ g.current_player)
    (hmark : p ≠ ' ') :
    g.run [⟨p, row, col⟩, ⟨q, row, col⟩] = some ([true, false], g.moved p r c) ∧
    g.run [⟨q, row, col⟩, ⟨p, row, col⟩] = some ([false, true], g.moved p r c) := by
  have hacc : g.make_move p row col = some (true, g.moved p r c) := by
    rw [make_move_in_range g p hr hc]
    simp [hover, hcell, hp]
  have hrej : g.make_move q row col = some (false, g) := by
    rw [make_move_in_range g q hr hc]
    simp [hq]
  have hocc : (g.moved p r c).make_move q row col = some (false, g.moved p r c) := by
    rw [make_move_in_range _ q hr hc]
    have : (g.moved p r c).board r c ≠ ' ' := by
      rw [moved_board, Board.set_same]
      exact hmark
    simp [this]
  exact ⟨run_cons_of_eq hacc (run_cons_of_eq hocc (run_nil _)),
    run_cons_of_eq hrej (run_cons_of_eq hacc (run_nil _))⟩

/-- C10: same-cell race over both serial orders.  In a state with
`game_over` false, `current_player` one of `'X'`, `'O'` and
`board[row][col] == ' '`, when `make_move('X',row,col)` and
`make_move('O',row,col)` are executed one after the other, in either order,
exactly one of the two calls returns true, the one made by `current_player`,
and the final board holds that player's symbol at `(row, col)` and equals
the original board everywhere else. -/
theorem same_cell_race (g : TicTacToe) (row col : Int) (hover : g.game_over = false)
    (hcp : g.current_player = 'X' ∨ g.current_player = 'O')
    (hcell : g.board.at? row col = some ' ') :
    (∃ (okX okO : Bool) (g2 : TicTacToe),
      g.run [⟨'X', row, col⟩, ⟨'O', row, col⟩] = some ([okX, okO], g2) ∧
      (okX = true ↔ g.current_player = 'X') ∧ (okO = true ↔ g.current_player = 'O') ∧
      ((okX = true ∧ okO = false) ∨ (okX = false ∧ okO = true)) ∧
      g2.board.at? row col = some g.current_player ∧
      (∀ r c : Int, r ≠ row ∨ c ≠ col → g2.board.at? r c = g.board.at? r c)) ∧
    (∃ (okO okX : Bool) (g2 : TicTacToe),
      g.run [⟨'O', row, col⟩, ⟨'X', row, col⟩] = some ([okO, okX], g2) ∧
      (okX = true ↔ g.current_player = 'X') ∧ (okO = true ↔ g.current_player = 'O') ∧
      ((okX = true ∧ okO = false) ∨ (okX = false ∧ okO = true)) ∧
      g2.board.at? row col = some g.current_player ∧
      (∀ r c : Int, r ≠ row ∨ c ≠ col → g2.board.at? r c = g.board.at? r c)) := by
  obtain ⟨r, c, hr, hc, hempty⟩ := Board.at?_eq_some_inv hcell
  have hboard : ∀ p : Char, (g.moved p r c).board.at? row col = some p := by
    intro p
    rw [moved_board, Board.at?_eq_some hr hc, Board.set_same]
  have hrest : ∀ p : Char, ∀ r1 c1 : Int, r1 ≠ row ∨ c1 ≠ col →
      (g.moved p r c).board.at? r1 c1 = g.board.at? r1 c1 := by
    intro p r1 c1 h
    rw [moved_board]
    exact Board.at?_set_other g.board p hr hc r1 c1 h
  rcases hcp with hx | ho
  · have hq : 'O' ≠ g.current_player := by
      rw [hx]
      decide
    obtain ⟨h1, h2⟩ := race_orders g 'X' 'O' hr hc hover hempty hx.symm hq (by decide)
    rw [hx]
    exact ⟨⟨true, false, _, h1, by simp, by simp, by simp, hboard 'X', hrest 'X'⟩,
      ⟨false, true, _, h2, by simp, by simp, by simp, hboard 'X', hrest 'X'⟩⟩
  · have hq : 'X' ≠ g.current_player := by
      rw [ho]
      decide
    obtain ⟨h1, h2⟩ := race_orders g 'O' 'X' hr hc hover hempty ho.symm hq (by decide)
    rw [ho]
    exact ⟨⟨false, true, _, h2, by simp, by simp, by simp, hboard 'O', hrest 'O'⟩,
      ⟨true, false, _, h1, by simp, by simp, by simp, hboard 'O', hrest 'O'⟩⟩

/-- On the empty board with `'X'` to move, both players ask for the centre. -/
theorem same_cell_race_witness :
    (∃ (okX okO : Bool) (g2 : TicTacToe),
      init.run [⟨'X', 1, 1⟩, ⟨'O', 1, 1⟩] = some ([okX, okO], g2) ∧
      (okX = true ↔ init.current_player = 'X') ∧ (okO = true ↔ init.current_player = 'O') ∧
      ((okX = true ∧ okO = false) ∨ (okX = false ∧ okO = true)) ∧
      g2.board.at? 1 1 = some init.current_player ∧
      (∀ r c : Int, r ≠ 1 ∨ c ≠ 1 → g2.board.at? r c = init.board.at? r c)) ∧
    (∃ (okO okX : Bool) (g2 : TicTacToe),
      init.run [⟨'O', 1, 1⟩, ⟨'X', 1, 1⟩] = some ([okO, okX], g2) ∧
      (okX = true ↔ init.current_player = 'X') ∧ (okO = true ↔ init.current_player = 'O') ∧
      ((okX = true ∧ okO = false) ∨ (okX = false ∧ okO = true)) ∧
      g2.board.at? 1 1 = some init.current_player ∧
      (∀ r c : Int, r ≠ 1 ∨ c ≠ 1 → g2.board.at? r c = init.board.at? r c)) :=
  same_cell_race init 1 1 rfl (Or.inl rfl) (by decide)

end TicTacToe

/-! ## Counting marks -/

namespace TicTacToe

/-- A write changes the count of a class of characters by what leaves the
cell and what enters it. -/
theorem countCells_write {g g1 : TicTacToe} {r c : Fin 3} {v : Char} (P : Char → Bool)
    (hb : g1.board = g.board.set r c v) :
    countCells g1 P + (if P (g.board r c) = true then 1 else 0) =
      countCells g P + (if P v = true then 1 else 0) := by
  unfold countCells allCells
  rw [hb]
  fin_cases r <;> fin_cases c <;>
    simp [List.countP_cons, Board.set] <;> omega

theorem countOf_write {g g1 : TicTacToe} {r c : Fin 3} {v : Char} (ch : Char)
    (hb : g1.board = g.board.set r c v) (hcell : g.board r c = ' ') (hch : ch ≠ ' ') :
    countOf g1 ch = countOf g ch + (if v = ch then 1 else 0) := by
  have h := countCells_write (fun x => x == ch) hb
  have h1 : ¬ (' ' = ch) := fun e => hch e.symm
  simp only [hcell, beq_iff_eq, h1, if_false, Nat.add_zero] at h
  exact h

theorem marks_write {g g1 : TicTacToe} {r c : Fin 3} {v : Char}
    (hb : g1.board = g.board.set r c v) (hcell : g.board r c = ' ') (hv : v ≠ ' ') :
    marks g1 = marks g + 1 := by
  have h := countCells_write (fun x => x != ' ') hb
  simpa [hcell, hv, marks] using h

theorem marks_le_nine (g : TicTacToe) : marks g ≤ 9 :=
  List.countP_le_length _

theorem marks_of_full {g : TicTacToe} (h : ∀ r c : Fin 3, g.board r c ≠ ' ') : marks g = 9 := by
  simp [marks, countCells, allCells, List.countP_cons, h]

theorem three_le_countOf {g : TicTacToe} {ch : Char} (h : hasLine g ch) : 3 ≤ countOf g ch := by
  rw [hasLine_iff] at h
  rcases h with h | h | h | h | h | h | h | h <;>
    simp [countOf, countCells, allCells, List.countP_cons, h.1, h.2.1, h.2.2] <;> omega

/-- While the game goes on after a move, some cell is still empty. -/
theorem moved_has_empty {g : TicTacToe} {player : Char} {r c : Fin 3}
    (hon : (g.moved player r c).game_over = false) :
    ∃ r1 c1 : Fin 3, (g.moved player r c).board r1 c1 = ' ' := by
  by_contra hne
  have hfull : ∀ r1 c1 : Fin 3, (g.moved player r c).board r1 c1 ≠ ' ' :=
    fun r1 c1 e => hne ⟨r1, c1, e⟩
  by_cases hl : hasLine (g.moved player r c) player
  · rw [(moved_of_win hl).1] at hon
    cases hon
  · rw [(moved_of_draw hl hfull).1] at hon
    cases hon

theorem counted_init : Counted init := by
  refine ⟨fun _ _ => Or.inl rfl, by decide, Or.inl (by decide), fun _ => Or.inl ⟨rfl, by decide⟩,
    fun _ => ⟨0, 0, rfl⟩⟩

theorem counted_moved {g : TicTacToe} {player : Char} {r c : Fin 3} (hw : WellFormed g)
    (hg : Counted g) (hover : g.game_over = false) (hturn : player = g.current_player)
    (hcell : g.board r c = ' ') : Counted (g.moved player r c) := by
  obtain ⟨hcells, hsum, -, hnext, -⟩ := hg
  have hb := moved_board g player r c
  have hX := countOf_write 'X' hb hcell (by decide)
  have hO := countOf_write 'O' hb hcell (by decide)
  have hxo : player = 'X' ∨ player = 'O' := by
    rcases hw.1 with e | e
    · exact Or.inl (hturn.trans e)
    · exact Or.inr (hturn.trans e)
  have hmark : player ≠ ' ' := by
    rcases hxo with e | e <;> rw [e] <;> decide
  have hM := marks_write hb hcell hmark
  have hcells1 : ∀ r1 c1 : Fin 3, (g.moved player r c).board r1 c1 = ' ' ∨
      (g.moved player r c).board r1 c1 = 'X' ∨ (g.moved player r c).board r1 c1 = 'O' := by
    intro r1 c1
    rw [hb]
    unfold Board.set
    split
    · exact Or.inr hxo
    · exact hcells r1 c1
  have halt : (g.moved player r c).game_over = false →
      Alternate g.current_player (g.moved player r c).current_player :=
    fun hon => moved_alternates hw hon
  rcases hnext hover with ⟨hcur, hcnt⟩ | ⟨hcur, hcnt⟩
  · have hp : player = 'X' := hturn.trans hcur
    subst hp
    simp only [if_true, (by decide : ¬ ('X' = 'O')), if_false, Nat.add_zero] at hX hO
    refine ⟨hcells1, by omega, Or.inr (by omega), fun hon => Or.inr ⟨?_, by omega⟩,
      moved_has_empty⟩
    rcases halt hon with ⟨-, e⟩ | ⟨e, -⟩
    · exact e
    · rw [hcur] at e
      exact absurd e (by decide)
  · have hp : player = 'O' := hturn.trans hcur
    subst hp
    simp only [if_true, (by decide : ¬ ('O' = 'X')), if_false, Nat.add_zero] at hX hO
    refine ⟨hcells1, by omega, Or.inl (by omega), fun hon => Or.inl ⟨?_, by omega⟩,
      moved_has_empty⟩
    rcases halt hon with ⟨e, -⟩ | ⟨-, e⟩
    · rw [hcur] at e
      exact absurd e (by decide)
    · exact e

theorem counted_of_reachable {g : TicTacToe} (h : Reachable g) : WellFormed g ∧ Counted g := by
  obtain ⟨calls, oks, hrun⟩ := h
  refine run_preserves (fun s => WellFormed s ∧ Counted s) ?_ calls init oks g
    ⟨wellFormed_init, counted_init⟩ hrun
  intro s player row col ok s1 hs hm
  refine ⟨wellFormed_make_move hs.1 hm, ?_⟩
  rcases make_move_cases hm with ⟨-, rfl⟩ | ⟨-, hover, hturn, r, c, -, -, hcell, rfl⟩
  · exact hs.2
  · exact counted_moved hs.1 hs.2 hover hturn hcell

/-- Each successful call adds one mark. -/
theorem run_marks (calls : List Call) :
    ∀ (g : TicTacToe) (oks : List Bool) (g2 : TicTacToe), WellFormed g →
      g.run calls = some (oks, g2) → marks g2 = marks g + oks.count true := by
  induction calls with
  | nil =>
    intro g oks g2 _ h
    simp only [run_nil, Option.some.injEq, Prod.mk.injEq] at h
    rw [← h.1, ← h.2]
    rfl
  | cons c cs ih =>
    intro g oks g2 hg h
    obtain ⟨ok, g1, oks1, hm, hr, rfl⟩ := run_cons_eq_some h
    have ih1 := ih g1 oks1 g2 (wellFormed_make_move hg hm) hr
    rcases make_move_cases hm with ⟨rfl, rfl⟩ | ⟨rfl, -, hturn, r, k, -, -, hcell, rfl⟩
    · rw [ih1]
      simp
    · have hmark : c.player ≠ ' ' := by
        rcases hg.1 with e | e <;> rw [hturn, e] <;> decide
      rw [ih1, marks_write (moved_board g c.player r k) hcell hmark]
      simp
      omega

/-- C15: no stuck state.  In every state reachable from the initial state by
`make_move` calls, if `game_over` is false then `current_player` is `'X'` or
`'O'`, at least one cell is `' '`, and `make_move` by `current_player`
returns true at some `row`, `col` in `0..2`; and a reachable board with no
empty cell has `game_over` true. -/
theorem no_stuck_state (g : TicTacToe) (hreach : Reachable g) :
    (g.game_over = false →
      (g.current_player = 'X' ∨ g.current_player = 'O') ∧
      (∃ r c : Fin 3, g.board r c = ' ') ∧
      ∃ (row col : Int) (g1 : TicTacToe), (0 ≤ row ∧ row < 3) ∧ (0 ≤ col ∧ col < 3) ∧
        g.make_move g.current_player row col = some (true, g1)) ∧
    ((∀ r c : Fin 3, g.board r c ≠ ' ') → g.game_over = true) := by
  obtain ⟨hw, -, -, -, -, hempty⟩ := counted_of_reachable hreach
  constructor
  · intro hover
    obtain ⟨r, c, hcell⟩ := hempty hover
    refine ⟨hw.1, ⟨r, c, hcell⟩, (r.val : Int), (c.val : Int), g.moved g.current_player r c,
      by omega, by omega, ?_⟩
    have hr : index? (r.val : Int) = some r := by
      obtain ⟨r1, h1, h2⟩ := index?_of_range (i := (r.val : Int)) (by omega)
      have : r1 = r := Fin.ext (by omega)
      rw [h1, this]
    have hc : index? (c.val : Int) = some c := by
      obtain ⟨c1, h1, h2⟩ := index?_of_range (i := (c.val : Int)) (by omega)
      have : c1 = c := Fin.ext (by omega)
      rw [h1, this]
    rw [make_move_in_range g g.current_player hr hc]
    simp [hover, hcell]
  · intro hfull
    by_contra hover
    obtain ⟨r, c, hcell⟩ := hempty (by simpa using hover)
    exact hfull r c hcell

/-- The state after `X` has taken the centre is reachable and in progress. -/
theorem no_stuck_state_witness :
    ((init.moved 'X' 1 1).game_over = false →
      ((init.moved 'X' 1 1).current_player = 'X' ∨ (init.moved 'X' 1 1).current_player = 'O') ∧
      (∃ r c : Fin 3, (init.moved 'X' 1 1).board r c = ' ') ∧
      ∃ (row col : Int) (g1 : TicTacToe), (0 ≤ row ∧ row < 3) ∧ (0 ≤ col ∧ col < 3) ∧
        (init.moved 'X' 1 1).make_move (init.moved 'X' 1 1).current_player row col =
          some (true, g1)) ∧
    ((∀ r c : Fin 3, (init.moved 'X' 1 1).board r c ≠ ' ') →
      (init.moved 'X' 1 1).game_over = true) :=
  no_stuck_state (init.moved 'X' 1 1) ⟨[⟨'X', 1, 1⟩], [true], rfl⟩

/-- C16: bounded game length.  For every sequence of `make_move` calls from
the initial state, the number of calls that return true equals the number of
non-empty cells of the resulting board, hence is at most 9; and if
`game_over` is true at the end, at least 5 calls have returned true. -/
theorem bounded_game_length (calls : List Call) (oks : List Bool) (g : TicTacToe)
    (hrun : init.run calls = some (oks, g)) :
    oks.count true = marks g ∧ oks.count true ≤ 9 ∧
      (g.game_over = true → 5 ≤ oks.count true) := by
  have hm : marks g = oks.count true := by
    have := run_marks calls init oks g wellFormed_init hrun
    rw [this]
    have h0 : marks init = 0 := by decide
    omega
  obtain ⟨hw, -, hsum, hcnt, -, -⟩ := counted_of_reachable ⟨calls, oks, hrun⟩
  refine ⟨hm.symm, hm ▸ marks_le_nine g, fun hover => ?_⟩
  rw [← hm]
  rcases hw.2.2 hover with ⟨-, hfull, -, -⟩ | ⟨-, hx, -⟩ | ⟨-, ho, -⟩
  · rw [marks_of_full hfull]
    omega
  · have := three_le_countOf hx
    omega
  · have := three_le_countOf ho
    omega

/-- The five moves of `topRowGame` all succeed: five marks, game over. -/
theorem bounded_game_length_witness :
    ([true, true, true, true, true].count true =
        marks (((((init.moved 'X' 0 0).moved 'O' 1 1).moved 'X' 0 1).moved 'O' 2 2).moved
          'X' 0 2)) ∧
      [true, true, true, true, true].count true ≤ 9 ∧
      ((((((init.moved 'X' 0 0).moved 'O' 1 1).moved 'X' 0 1).moved 'O' 2 2).moved
          'X' 0 2).game_over = true → 5 ≤ [true, true, true, true, true].count true) :=
  bounded_game_length topRowGame [true, true, true, true, true] _ rfl

/-- C17: mark-count invariant.  In every state reachable from the initial
state by `make_move` calls, every cell is one of `' '`, `'X'`, `'O'`; the
number of `'X'` cells equals the number of `'O'` cells or exceeds it by
exactly one; and while `game_over` is false, `current_player` is `'X'`
exactly when the two counts are equal and `'O'` exactly when `'X'` has one
more. -/
theorem mark_count (g : TicTacToe) (hreach : Reachable g) :
    (∀ r c : Fin 3, g.board r c = ' ' ∨ g.board r c = 'X' ∨ g.board r c = 'O') ∧
    (countOf g 'X' = countOf g 'O' ∨ countOf g 'X' = countOf g 'O' + 1) ∧
    (g.game_over = false →
      (g.current_player = 'X' ↔ countOf g 'X' = countOf g 'O') ∧
      (g.current_player = 'O' ↔ countOf g 'X' = countOf g 'O' + 1)) := by
  obtain ⟨-, hcells, -, hcnt, hnext, -⟩ := counted_of_reachable hreach
  refine ⟨hcells, hcnt, fun hover => ?_⟩
  rcases hnext hover with ⟨hcur, h⟩ | ⟨hcur, h⟩
  · rw [hcur]
    refine ⟨⟨fun _ => h, fun _ => rfl⟩, ⟨fun e => absurd e (by decide), fun e => ?_⟩⟩
    omega
  · rw [hcur]
    refine ⟨⟨fun e => absurd e (by decide), fun e => ?_⟩, ⟨fun _ => h, fun _ => rfl⟩⟩
    omega

/-- The state `afterEight` is reachable: four `'X'`, four `'O'`, `'X'` to move. -/
theorem mark_count_witness :
    (∀ r c : Fin 3, afterEight.board r c = ' ' ∨ afterEight.board r c = 'X' ∨
      afterEight.board r c = 'O') ∧
    (countOf afterEight 'X' = countOf afterEight 'O' ∨
      countOf afterEight 'X' = countOf afterEight 'O' + 1) ∧
    (afterEight.game_over = false →
      (afterEight.current_player = 'X' ↔ countOf afterEight 'X' = countOf afterEight 'O') ∧
      (afterEight.current_player = 'O' ↔
        countOf afterEight 'X' = countOf afterEight 'O' + 1)) :=
  mark_count afterEight ⟨eightMoves, [true, true, true, true, true, true, true, true], rfl⟩

end TicTacToe

/-! ## The draw scenario -/

namespace TicTacToe

theorem countOf_congr {g h : TicTacToe} (e : g.board = h.board) (ch : Char) :
    countOf g ch = countOf h ch := by
  simp [countOf, countCells, e]

/-- C11 as stated fails: no sequence of `make_move` calls from the initial
state ends with the board X,O,X / O,X,O / O,X,O.  That grid holds four `'X'`
and five `'O'`, and `'X'` moves first. -/
theorem draw_scenario_counterexample :
    ¬ ∃ (calls : List Call) (oks : List Bool) (g : TicTacToe),
      init.run calls = some (oks, g) ∧ (∀ ok ∈ oks, ok = true) ∧
      (∀ r c : Fin 3, g.board r c = specDrawGrid r c) ∧
      g.check_win 'X' = false ∧ g.check_win 'O' = false ∧
      g.game_over = true ∧ g.winner = 'D' := by
  rintro ⟨calls, oks, g, hrun, -, hboard, -⟩
  obtain ⟨-, -, -, hcnt, -, -⟩ := counted_of_reachable ⟨calls, oks, hrun⟩
  have hb : g.board = (⟨specDrawGrid, 'X', true, 'D'⟩ : TicTacToe).board :=
    funext fun r => funext fun c => hboard r c
  have hX : countOf g 'X' = 4 := by
    rw [countOf_congr hb]
    decide
  have hO : countOf g 'O' = 5 := by
    rw [countOf_congr hb]
    decide
  omega

/-- C11, amended: the nine calls of `drawGame` from the initial state all
return true, after which the board reads row 0 = X,O,X, row 1 = X,X,O,
row 2 = O,X,O, no line is complete, `game_over` is true and `winner` is
`'D'`. -/
theorem draw_scenario :
    ∃ g : TicTacToe,
      init.run drawGame = some ([true, true, true, true, true, true, true, true, true], g) ∧
      (∀ r c : Fin 3, g.board r c = drawGrid r c) ∧
      g.check_win 'X' = false ∧ g.check_win 'O' = false ∧
      g.game_over = true ∧ g.winner = 'D' :=
  ⟨_, rfl, by decide, by decide, by decide, rfl, rfl⟩

end TicTacToe

/-! ## Coordinates outside the board -/

theorem index?_eq_none {i : Int} (h : ¬ (0 ≤ i ∧ i < 3)) : index? i = none := by
  simp [index?, h]

namespace TicTacToe

/-- C12 as stated fails: on the initial state `make_move('X', 3, 0)` reads
`board[3][0]`, outside the array; it does not return false. -/
theorem invalid_coordinates_counterexample :
    ¬ (0 ≤ (3 : Int) ∧ (3 : Int) < 3) ∧ init.make_move 'X' 3 0 = none ∧
      init.make_move 'X' 3 0 ≠ some (false, init) := by
  refine ⟨by decide, rfl, ?_⟩
  have h : init.make_move 'X' 3 0 = none := rfl
  rw [h]
  exact fun e => Option.noConfusion e

/-- C12, amended: `make_move` does not validate its coordinates.  If `row`
or `col` lies outside `0..2`, then on a state with `game_over` true the call
returns false and leaves the state unchanged (the guard stops at `game_over`
before the board is read), and on a state with `game_over` false the call
reads the board outside its bounds and has no defined result. -/
theorem invalid_coordinates (g : TicTacToe) (player : Char) (row col : Int)
    (hout : ¬ (0 ≤ row ∧ row < 3) ∨ ¬ (0 ≤ col ∧ col < 3)) :
    (g.game_over = true → g.make_move player row col = some (false, g)) ∧
    (g.game_over = false → g.make_move player row col = none) := by
  refine ⟨make_move_game_over g player row col, fun hover => ?_⟩
  unfold make_move
  rw [if_neg (by simp [hover])]
  rcases hout with h | h
  · rw [index?_eq_none h]
  · rw [index?_eq_none h]
    cases index? row <;> rfl

/-- Row 3 on the finished game `topRowWon`: rejected, state unchanged.
Column -1 on the initial state: no defined result. -/
theorem invalid_coordinates_witness :
    topRowWon.make_move 'O' 3 0 = some (false, topRowWon) ∧ init.make_move 'X' 0 (-1) = none :=
  ⟨(invalid_coordinates topRowWon 'O' 3 0 (Or.inl (by decide))).1 rfl,
    (invalid_coordinates init 'X' 0 (-1) (Or.inr (by decide))).2 rfl⟩

end TicTacToe

/-! ## The players' strategies -/

theorem index?_natCast (r : Fin 3) : index? (r.val : Int) = some r := by
  obtain ⟨r1, h1, h2⟩ := index?_of_range (i := (r.val : Int)) (by omega)
  have : r1 = r := Fin.ext (by omega)
  rw [h1, this]

theorem rasterCells_eq :
    rasterCells = TicTacToe.allCells.map (fun p => ((p.1.val : Int), (p.2.val : Int))) := by
  decide

theorem mem_allCells (q : Fin 3 × Fin 3) : q ∈ TicTacToe.allCells := by
  obtain ⟨r, c⟩ := q
  fin_cases r <;> fin_cases c <;> decide

theorem allCells_pairwise : TicTacToe.allCells.Pairwise rasterBefore := by
  decide

/-- The first element of a list that satisfies `P`, with what precedes it. -/
theorem exists_first {α : Type} (P : α → Prop) (l : List α) (h : ∃ x ∈ l, P x) :
    ∃ (l1 : List α) (x : α) (l2 : List α), l = l1 ++ x :: l2 ∧ P x ∧ ∀ y ∈ l1, ¬ P y := by
  induction l with
  | nil =>
    obtain ⟨x, hx, -⟩ := h
    cases hx
  | cons a l ih =>
    by_cases ha : P a
    · exact ⟨[], a, l, rfl, ha, fun y hy => by cases hy⟩
    · have h1 : ∃ x ∈ l, P x := by
        obtain ⟨x, hx, hp⟩ := h
        rcases List.mem_cons.1 hx with e | e
        · rw [e] at hp
          exact absurd hp ha
        · exact ⟨x, e, hp⟩
      obtain ⟨l1, x, l2, e, hx, hl1⟩ := ih h1
      refine ⟨a :: l1, x, l2, by rw [e]; rfl, hx, fun y hy => ?_⟩
      rcases List.mem_cons.1 hy with e1 | e1
      · rw [e1]
        exact ha
      · exact hl1 y e1

theorem attemptEach_cons_false {symbol : Char} {g g1 : TicTacToe} {row col : Int}
    (rest : List (Int × Int)) (h : g.make_move symbol row col = some (false, g1)) :
    attemptEach symbol ((row, col) :: rest) g =
      (attemptEach symbol rest g1).after (⟨symbol, row, col⟩, false) := by
  simp only [attemptEach, h]

theorem attemptEach_cons_true {symbol : Char} {g g1 : TicTacToe} {row col : Int}
    (rest : List (Int × Int)) (h : g.make_move symbol row col = some (true, g1)) :
    attemptEach symbol ((row, col) :: rest) g = .returned [(⟨symbol, row, col⟩, true)] g1 := by
  simp only [attemptEach, h]

/-- Calls that are all rejected without effect: the scan goes to the end of
the list and returns. -/
theorem attemptEach_rejected (symbol : Char) (g : TicTacToe) (l : List (Fin 3 × Fin 3))
    (h : ∀ p ∈ l, g.make_move symbol (p.1.val : Int) (p.2.val : Int) = some (false, g)) :
    attemptEach symbol (l.map (fun p => ((p.1.val : Int), (p.2.val : Int)))) g =
      .returned (l.map (attemptAt symbol false)) g := by
  induction l with
  | nil => rfl
  | cons p l ih =>
    have hp := h p (List.mem_cons_self p l)
    have ih1 := ih (fun q hq => h q (List.mem_cons_of_mem p hq))
    rw [List.map_cons, attemptEach_cons_false _ hp, ih1]
    rfl

/-- Rejected calls, then an accepted one: the scan returns there. -/
theorem attemptEach_accepted (symbol : Char) (g g1 : TicTacToe)
    (l1 : List (Fin 3 × Fin 3)) (p : Fin 3 × Fin 3) (l2 : List (Fin 3 × Fin 3))
    (h1 : ∀ q ∈ l1, g.make_move symbol (q.1.val : Int) (q.2.val : Int) = some (false, g))
    (h2 : g.make_move symbol (p.1.val : Int) (p.2.val : Int) = some (true, g1)) :
    attemptEach symbol ((l1 ++ p :: l2).map (fun p => ((p.1.val : Int), (p.2.val : Int)))) g =
      .returned (l1.map (attemptAt symbol false) ++ [attemptAt symbol true p]) g1 := by
  induction l1 with
  | nil =>
    rw [List.nil_append, List.map_cons, attemptEach_cons_true _ h2]
    rfl
  | cons q l1 ih =>
    have hq := h1 q (List.mem_cons_self q l1)
    have ih1 := ih (fun x hx => h1 x (List.mem_cons_of_mem q hx))
    rw [List.cons_append, List.map_cons, attemptEach_cons_false _ hq, ih1]
    rfl

/-- On a finished game the loop of `play_random` never ends: after any
number of iterations it is still running, every attempt rejected. -/
theorem play_random_game_over (symbol : Char) (draws : Nat → Fin 3 × Fin 3) (g : TicTacToe)
    (hover : g.game_over = true) (fuel : Nat) :
    ∀ i : Nat, ∃ attempts : List (Call × Bool),
      play_random symbol draws fuel i g = .looping attempts g ∧
      attempts.length = fuel ∧ ∀ a ∈ attempts, a.2 = false := by
  induction fuel with
  | zero =>
    intro i
    exact ⟨[], rfl, rfl, fun a ha => by cases ha⟩
  | succ n ih =>
    intro i
    obtain ⟨attempts, h1, h2, h3⟩ := ih (i + 1)
    refine ⟨(⟨symbol, ((draws i).1.val : Int), ((draws i).2.val : Int)⟩, false) :: attempts,
      ?_, by simp [h2], ?_⟩
    · simp only [play_random, TicTacToe.make_move_game_over g symbol _ _ hover, h1]
      rfl
    · intro a ha
      rcases List.mem_cons.1 ha with e | e
      · rw [e]
      · exact h3 a e

namespace TicTacToe

theorem eq_of_fields {g h : TicTacToe} (hb : g.board = h.board)
    (hc : g.current_player = h.current_player) (ho : g.game_over = h.game_over)
    (hw : g.winner = h.winner) : g = h := by
  cases g
  cases h
  simp only [mk.injEq]
  exact ⟨hb, hc, ho, hw⟩

/-- The finished game `topRowWon` is the state `topRowGame` ends in. -/
theorem reachable_topRowWon : Reachable topRowWon := by
  have h : ∃ g5 : TicTacToe,
      init.run topRowGame = some ([true, true, true, true, true], g5) ∧ g5 = topRowWon := by
    refine ⟨_, rfl, eq_of_fields ?_ rfl rfl rfl⟩
    funext r c
    fin_cases r <;> fin_cases c <;> rfl
  obtain ⟨g5, h1, h2⟩ := h
  rw [h2] at h1
  exact ⟨topRowGame, _, h1⟩

end TicTacToe

/-- C13 fails for the strategy "random": `topRowWon` is reachable and has
`game_over` true; on it `play` with strategy "random" has not returned after
any number of iterations of its loop, whatever coordinates are drawn, every
attempt being rejected; `play` with strategy "sequential" returns after nine
rejected attempts and leaves the state unchanged. -/
theorem play_on_finished_game :
    TicTacToe.Reachable TicTacToe.topRowWon ∧ TicTacToe.topRowWon.game_over = true ∧
    (∀ (draws : Nat → Fin 3 × Fin 3) (fuel : Nat), ∃ attempts : List (Call × Bool),
      Player.play ⟨'O', "random"⟩ draws fuel TicTacToe.topRowWon =
        .looping attempts TicTacToe.topRowWon ∧
      attempts.length = fuel ∧ ∀ a ∈ attempts, a.2 = false) ∧
    (∀ (draws : Nat → Fin 3 × Fin 3) (fuel : Nat),
      Player.play ⟨'O', "sequential"⟩ draws fuel TicTacToe.topRowWon =
        .returned (TicTacToe.allCells.map (attemptAt 'O' false)) TicTacToe.topRowWon) := by
  refine ⟨TicTacToe.reachable_topRowWon, rfl, fun draws fuel => ?_, fun draws fuel => ?_⟩
  · have hs : Player.play ⟨'O', "random"⟩ draws fuel TicTacToe.topRowWon =
        play_random 'O' draws fuel 0 TicTacToe.topRowWon := by
      simp [Player.play]
    rw [hs]
    exact play_random_game_over 'O' draws TicTacToe.topRowWon rfl fuel 0
  · have hs : Player.play ⟨'O', "sequential"⟩ draws fuel TicTacToe.topRowWon =
        play_sequential 'O' TicTacToe.topRowWon := by
      simp [Player.play]
    rw [hs, play_sequential, rasterCells_eq]
    exact attemptEach_rejected 'O' TicTacToe.topRowWon TicTacToe.allCells
      (fun p _ => TicTacToe.make_move_game_over _ 'O' _ _ rfl)

/-- C18: raster-scan strategy, run with no move of another actor in between.
If `game_over` is false, `current_player` equals the player's symbol and some
cell is empty, `play_sequential` makes rejected attempts on the occupied
cells that precede the first empty cell in row-major order, then one
successful `make_move` that places the symbol in that cell, and returns; if
`game_over` is true or it is not the symbol's turn, it makes nine rejected
attempts, one per cell, and returns with the game state unchanged. -/
theorem play_sequential_correct (g : TicTacToe) (symbol : Char) :
    (g.game_over = false → g.current_player = symbol → (∃ r c : Fin 3, g.board r c = ' ') →
      ∃ (p : Fin 3 × Fin 3) (before : List (Fin 3 × Fin 3)),
        play_sequential symbol g =
          .returned (before.map (attemptAt symbol false) ++ [attemptAt symbol true p])
            (g.moved symbol p.1 p.2) ∧
        g.make_move symbol (p.1.val : Int) (p.2.val : Int) =
          some (true, g.moved symbol p.1 p.2) ∧
        (g.moved symbol p.1 p.2).board p.1 p.2 = symbol ∧
        g.board p.1 p.2 = ' ' ∧
        (∀ q : Fin 3 × Fin 3, g.board q.1 q.2 = ' ' → q = p ∨ rasterBefore p q) ∧
        (∀ q ∈ before, g.board q.1 q.2 ≠ ' ' ∧ rasterBefore q p)) ∧
    (g.game_over = true ∨ g.current_player ≠ symbol →
      play_sequential symbol g =
        .returned (TicTacToe.allCells.map (attemptAt symbol false)) g ∧
      (TicTacToe.allCells.map (attemptAt symbol false)).length = 9) := by
  constructor
  · intro hover hturn hempty
    have hex : ∃ x ∈ TicTacToe.allCells, g.board x.1 x.2 = ' ' := by
      obtain ⟨r, c, h⟩ := hempty
      exact ⟨(r, c), mem_allCells (r, c), h⟩
    obtain ⟨l1, p, l2, hsplit, hp, hl1⟩ :=
      exists_first (fun x : Fin 3 × Fin 3 => g.board x.1 x.2 = ' ') TicTacToe.allCells hex
    have hacc : g.make_move symbol (p.1.val : Int) (p.2.val : Int) =
        some (true, g.moved symbol p.1 p.2) := by
      rw [TicTacToe.make_move_in_range g symbol (index?_natCast p.1) (index?_natCast p.2)]
      simp [hover, hp, hturn]
    have hrej : ∀ q ∈ l1, g.make_move symbol (q.1.val : Int) (q.2.val : Int) =
        some (false, g) := by
      intro q hq
      rw [TicTacToe.make_move_in_range g symbol (index?_natCast q.1) (index?_natCast q.2)]
      have : g.board q.1 q.2 ≠ ' ' := hl1 q hq
      simp [this]
    have hpw := allCells_pairwise
    rw [hsplit, List.pairwise_append, List.pairwise_cons] at hpw
    obtain ⟨-, ⟨hafter, -⟩, hbefore⟩ := hpw
    refine ⟨p, l1, ?_, hacc, ?_, hp, ?_, ?_⟩
    · rw [play_sequential, rasterCells_eq, hsplit]
      exact attemptEach_accepted symbol g _ l1 p l2 hrej hacc
    · rw [TicTacToe.moved_board, Board.set_same]
    · intro q hq
      have hmem := mem_allCells q
      rw [hsplit] at hmem
      rcases List.mem_append.1 hmem with h1 | h1
      · exact absurd hq (hl1 q h1)
      · rcases List.mem_cons.1 h1 with h2 | h2
        · exact Or.inl h2
        · exact Or.inr (hafter q h2)
    · intro q hq
      exact ⟨hl1 q hq, hbefore q hq p (List.mem_cons_self p l2)⟩
  · intro h
    refine ⟨?_, rfl⟩
    rw [play_sequential, rasterCells_eq]
    apply attemptEach_rejected
    intro p _
    rw [TicTacToe.make_move_in_range g symbol (index?_natCast p.1) (index?_natCast p.2)]
    have : g.game_over = true ∨ g.board p.1 p.2 ≠ ' ' ∨ symbol ≠ g.current_player := by
      rcases h with h | h
      · exact Or.inl h
      · exact Or.inr (Or.inr (fun e => h e.symm))
    rw [if_pos this]

/-! ## Index safety -/

theorem index?_zero : index? 0 = some 0 := rfl

theorem index?_one : index? 1 = some 1 := rfl

theorem index?_two : index? 2 = some 2 := rfl

theorem andAlso?_some (a b : Bool) : andAlso? (some a) (some b) = some (a && b) := by
  cases a <;> rfl

theorem orElse?_some (a b : Bool) : orElse? (some a) (some b) = some (a || b) := by
  cases a <;> rfl

namespace TicTacToe

theorem cellIs?_natCast (g : TicTacToe) (r c : Fin 3) (ch : Char) :
    g.cellIs? (r.val : Int) (c.val : Int) ch = some (g.board r c == ch) := by
  simp [cellIs?, Board.at?, index?_natCast]

theorem cellIs?_lit (g : TicTacToe) (ch : Char) :
    g.cellIs? 0 0 ch = some (g.board 0 0 == ch) ∧ g.cellIs? 0 1 ch = some (g.board 0 1 == ch) ∧
    g.cellIs? 0 2 ch = some (g.board 0 2 == ch) ∧ g.cellIs? 1 0 ch = some (g.board 1 0 == ch) ∧
    g.cellIs? 1 1 ch = some (g.board 1 1 == ch) ∧ g.cellIs? 1 2 ch = some (g.board 1 2 == ch) ∧
    g.cellIs? 2 0 ch = some (g.board 2 0 == ch) ∧ g.cellIs? 2 1 ch = some (g.board 2 1 == ch) ∧
    g.cellIs? 2 2 ch = some (g.board 2 2 == ch) :=
  ⟨cellIs?_natCast g 0 0 ch, cellIs?_natCast g 0 1 ch, cellIs?_natCast g 0 2 ch,
    cellIs?_natCast g 1 0 ch, cellIs?_natCast g 1 1 ch, cellIs?_natCast g 1 2 ch,
    cellIs?_natCast g 2 0 ch, cellIs?_natCast g 2 1 ch, cellIs?_natCast g 2 2 ch⟩

theorem check_win?_eq (g : TicTacToe) (player : Char) :
    g.check_win? player = some (g.check_win player) := by
  obtain ⟨h00, h01, h02, h10, h11, h12, h20, h21, h22⟩ := cellIs?_lit g player
  simp only [check_win?, check_win_loop?, h00, h01, h02, h10, h11, h12, h20, h21, h22,
    andAlso?_some, orElse?_some, Option.some_bind, check_win, rowOrCol,
    List.any_cons, List.any_nil, Bool.or_false]
  generalize (g.board 0 0 == player && g.board 0 1 == player && g.board 0 2 == player ||
      g.board 0 0 == player && g.board 1 0 == player && g.board 2 0 == player) = x0
  generalize (g.board 1 0 == player && g.board 1 1 == player && g.board 1 2 == player ||
      g.board 0 1 == player && g.board 1 1 == player && g.board 2 1 == player) = x1
  generalize (g.board 2 0 == player && g.board 2 1 == player && g.board 2 2 == player ||
      g.board 0 2 == player && g.board 1 2 == player && g.board 2 2 == player) = x2
  generalize (g.board 0 0 == player && g.board 1 1 == player && g.board 2 2 == player ||
      g.board 0 2 == player && g.board 1 1 == player && g.board 2 0 == player) = d
  revert x0 x1 x2 d
  decide

theorem check_draw_scan?_eq (g : TicTacToe) (l : List (Fin 3 × Fin 3)) :
    g.check_draw_scan? (l.map (fun p => ((p.1.val : Int), (p.2.val : Int)))) =
      some (!(l.any (fun p => g.board p.1 p.2 == ' '))) := by
  induction l with
  | nil => rfl
  | cons p l ih =>
    simp only [List.map_cons, check_draw_scan?, cellIs?_natCast, Option.some_bind, ih,
      List.any_cons]
    cases (g.board p.1 p.2 == ' ') <;> simp

theorem check_draw?_eq (g : TicTacToe) : g.check_draw? = some g.check_draw := by
  rw [check_draw?, rasterCells_eq, check_draw_scan?_eq]
  simp only [allCells, check_draw, List.any_cons, List.any_nil, Bool.or_false]
  generalize (g.board 0 0 == ' ') = a00
  generalize (g.board 0 1 == ' ') = a01
  generalize (g.board 0 2 == ' ') = a02
  generalize (g.board 1 0 == ' ') = a10
  generalize (g.board 1 1 == ' ') = a11
  generalize (g.board 1 2 == ' ') = a12
  generalize (g.board 2 0 == ' ') = a20
  generalize (g.board 2 1 == ' ') = a21
  generalize (g.board 2 2 == ' ') = a22
  revert a00 a01 a02 a10 a11 a12 a20 a21 a22
  decide

/-- The checked embedding of `make_move` computes what `make_move` does, on
all arguments. -/
theorem make_move?_eq (g : TicTacToe) (player : Char) (row col : Int) :
    g.make_move? player row col = g.make_move player row col := by
  unfold make_move? make_move Board.at? Board.set?
  by_cases hover : g.game_over = true
  · rw [if_pos hover, if_pos hover]
  · rw [if_neg hover, if_neg hover]
    cases index? row with
    | none => rfl
    | some r =>
      cases index? col with
      | none => rfl
      | some c =>
        simp only [check_win?_eq, check_draw?_eq]
        by_cases hc : g.board r c ≠ ' ' ∨ player ≠ g.current_player
        · rw [if_pos hc, if_pos hc]
        · rw [if_neg hc, if_neg hc]
          cases check_win { g with board := g.board.set r c player } player
          · cases check_draw { g with board := g.board.set r c player } <;> simp
          · simp

end TicTacToe

theorem Played.after_ne_outOfBounds {a : Call × Bool} {p : Played} (h : p ≠ .outOfBounds) :
    p.after a ≠ .outOfBounds := by
  cases p with
  | returned attempts g => exact fun e => Played.noConfusion e
  | outOfBounds => exact absurd rfl h
  | looping attempts g => exact fun e => Played.noConfusion e

theorem Played.attempts_after (a : Call × Bool) (p : Played) (h : p ≠ .outOfBounds) :
    (p.after a).attempts = a :: p.attempts := by
  cases p with
  | returned attempts g => rfl
  | outOfBounds => exact absurd rfl h
  | looping attempts g => rfl

/-- A scan over cells inside the board stays inside the board. -/
theorem attemptEach_in_range (symbol : Char) (l : List (Int × Int))
    (hl : ∀ p ∈ l, (0 ≤ p.1 ∧ p.1 < 3) ∧ (0 ≤ p.2 ∧ p.2 < 3)) :
    ∀ g : TicTacToe, attemptEach symbol l g ≠ .outOfBounds ∧
      ∀ a ∈ (attemptEach symbol l g).attempts, a.1.inRange := by
  induction l with
  | nil =>
    intro g
    exact ⟨fun e => Played.noConfusion e, fun a ha => by cases ha⟩
  | cons p l ih =>
    intro g
    obtain ⟨row, col⟩ := p
    have hp := hl (row, col) (List.mem_cons_self _ l)
    obtain ⟨ok, g1, hm, -, -⟩ := TicTacToe.make_move_total g symbol row col hp.1 hp.2
    obtain ⟨ih1, ih2⟩ := ih (fun q hq => hl q (List.mem_cons_of_mem _ hq)) g1
    cases ok with
    | true =>
      rw [attemptEach_cons_true l hm]
      refine ⟨fun e => Played.noConfusion e, fun a ha => ?_⟩
      simp only [Played.attempts, List.mem_singleton] at ha
      rw [ha]
      exact hp
    | false =>
      rw [attemptEach_cons_false l hm]
      refine ⟨Played.after_ne_outOfBounds ih1, fun a ha => ?_⟩
      rw [Played.attempts_after _ _ ih1] at ha
      rcases List.mem_cons.1 ha with e | e
      · rw [e]
        exact hp
      · exact ih2 a e

theorem rasterCells_in_range :
    ∀ p ∈ rasterCells, (0 ≤ p.1 ∧ p.1 < 3) ∧ (0 ≤ p.2 ∧ p.2 < 3) := by
  decide

/-- The loop of `play_random` stays inside the board. -/
theorem play_random_in_range (symbol : Char) (draws : Nat → Fin 3 × Fin 3) (fuel : Nat) :
    ∀ (i : Nat) (g : TicTacToe), play_random symbol draws fuel i g ≠ .outOfBounds ∧
      ∀ a ∈ (play_random symbol draws fuel i g).attempts, a.1.inRange := by
  induction fuel with
  | zero =>
    intro i g
    exact ⟨fun e => Played.noConfusion e, fun a ha => by cases ha⟩
  | succ n ih =>
    intro i g
    have hr : (0 : Int) ≤ ((draws i).1.val : Int) ∧ ((draws i).1.val : Int) < 3 := by omega
    have hc : (0 : Int) ≤ ((draws i).2.val : Int) ∧ ((draws i).2.val : Int) < 3 := by omega
    obtain ⟨ok, g1, hm, -, -⟩ := TicTacToe.make_move_total g symbol _ _ hr hc
    obtain ⟨ih1, ih2⟩ := ih (i + 1) g1
    cases ok with
    | true =>
      simp only [play_random, hm]
      refine ⟨fun e => Played.noConfusion e, fun a ha => ?_⟩
      simp only [Played.attempts, List.mem_singleton] at ha
      rw [ha]
      exact ⟨hr, hc⟩
    | false =>
      simp only [play_random, hm]
      refine ⟨Played.after_ne_outOfBounds ih1, fun a ha => ?_⟩
      rw [Played.attempts_after _ _ ih1] at ha
      rcases List.mem_cons.1 ha with e | e
      · rw [e]
        exact ⟨hr, hc⟩
      · exact ih2 a e

/-- After `X` has taken `(0, 0)`: player `O` scans past the taken cell and
moves at `(0, 1)`; player `X`, out of turn, is rejected nine times. -/
theorem play_sequential_correct_witness :
    (∃ (p : Fin 3 × Fin 3) (before : List (Fin 3 × Fin 3)),
      play_sequential 'O' (TicTacToe.init.moved 'X' 0 0) =
        .returned (before.map (attemptAt 'O' false) ++ [attemptAt 'O' true p])
          ((TicTacToe.init.moved 'X' 0 0).moved 'O' p.1 p.2) ∧
      (TicTacToe.init.moved 'X' 0 0).make_move 'O' (p.1.val : Int) (p.2.val : Int) =
        some (true, (TicTacToe.init.moved 'X' 0 0).moved 'O' p.1 p.2) ∧
      ((TicTacToe.init.moved 'X' 0 0).moved 'O' p.1 p.2).board p.1 p.2 = 'O' ∧
      (TicTacToe.init.moved 'X' 0 0).board p.1 p.2 = ' ' ∧
      (∀ q : Fin 3 × Fin 3, (TicTacToe.init.moved 'X' 0 0).board q.1 q.2 = ' ' →
        q = p ∨ rasterBefore p q) ∧
      (∀ q ∈ before, (TicTacToe.init.moved 'X' 0 0).board q.1 q.2 ≠ ' ' ∧ rasterBefore q p)) ∧
    (play_sequential 'X' (TicTacToe.init.moved 'X' 0 0) =
        .returned (TicTacToe.allCells.map (attemptAt 'X' false)) (TicTacToe.init.moved 'X' 0 0) ∧
      (TicTacToe.allCells.map (attemptAt 'X' false)).length = 9) :=
  ⟨(play_sequential_correct (TicTacToe.init.moved 'X' 0 0) 'O').1 rfl rfl ⟨0, 1, rfl⟩,
    (play_sequential_correct (TicTacToe.init.moved 'X' 0 0) 'X').2 (Or.inr (by decide))⟩

/-- C19: index safety.  Every board access evaluated by `check_win` and
`check_draw` is inside the 3x3 bounds: their fully checked embeddings always
return, with the value of `check_win` and `check_draw`.  For `row`, `col` in
`0..2` the same holds of `make_move`: its checked embedding returns, with the
result and state of `make_move`.  Every `make_move` call issued by
`play_sequential`, and by `play_random` with coordinates drawn from `0..2`,
has both coordinates in `0..2`, and no such call indexes outside the board. -/
theorem index_safety :
    (∀ (g : TicTacToe) (player : Char), g.check_win? player = some (g.check_win player)) ∧
    (∀ g : TicTacToe, g.check_draw? = some g.check_draw) ∧
    (∀ (g : TicTacToe) (player : Char) (row col : Int),
      0 ≤ row ∧ row < 3 → 0 ≤ col ∧ col < 3 →
      ∃ (ok : Bool) (g1 : TicTacToe), g.make_move? player row col = some (ok, g1) ∧
        g.make_move player row col = some (ok, g1)) ∧
    (∀ (g : TicTacToe) (symbol : Char), play_sequential symbol g ≠ .outOfBounds ∧
      ∀ a ∈ (play_sequential symbol g).attempts, a.1.inRange) ∧
    (∀ (g : TicTacToe) (symbol : Char) (draws : Nat → Fin 3 × Fin 3) (fuel : Nat),
      play_random symbol draws fuel 0 g ≠ .outOfBounds ∧
      ∀ a ∈ (play_random symbol draws fuel 0 g).attempts, a.1.inRange) := by
  refine ⟨TicTacToe.check_win?_eq, TicTacToe.check_draw?_eq, ?_, ?_, ?_⟩
  · intro g player row col hrow hcol
    obtain ⟨ok, g1, hm, -, -⟩ := TicTacToe.make_move_total g player row col hrow hcol
    exact ⟨ok, g1, by rw [TicTacToe.make_move?_eq, hm], hm⟩
  · intro g symbol
    exact attemptEach_in_range symbol rasterCells rasterCells_in_range g
  · intro g symbol draws fuel
    exact play_random_in_range symbol draws fuel 0 g

/-- The centre of the empty board: both coordinates are in `0..2`. -/
theorem index_safety_witness :
    ∃ (ok : Bool) (g1 : TicTacToe), TicTacToe.init.make_move? 'X' 1 1 = some (ok, g1) ∧
      TicTacToe.init.make_move 'X' 1 1 = some (ok, g1) :=
  index_safety.2.2.1 TicTacToe.init 'X' 1 1 (by decide) (by decide)
